import Mathlib

/-!
# Verification of the workflow graph engine (`src/frontend/workflow-builder.js`)

This file gives a shallow embedding of the `WorkflowBuilder` class: its node
and connection stores (JavaScript `Map`s, embedded as association lists kept in
insertion order), the public graph operations (`createNode`, `createConnection`,
`removeConnection`, `removeConnectionsToPort`, `deleteNode`, `clearWorkflow`),
graph validation (`validateWorkflow` with its depth-first cycle scan and the
orphan-node warning pass), serialization (`exportWorkflow` / `importWorkflow`),
and the top-level `executeWorkflow` entry gate.

Purely visual concerns of the source (DOM rendering, SVG connection paths,
drag-and-drop, notifications) are not modelled; the embedding covers exactly
the data and control structure of the graph model.  The `metadata.created`
timestamp of exported documents is a wall-clock value and is omitted.
-/

/-! ## Association lists in insertion order (JavaScript `Map` semantics)

A JavaScript `Map` iterates in insertion order; `set` on an existing key
replaces the value in place, `set` on a fresh key appends, `delete` removes the
(single) entry with that key.  We embed a `Map` as a `List (String × α)` and
mirror those operations; on lists whose keys are duplicate-free these agree
with `Map` exactly. -/

def alGet {α : Type} (l : List (String × α)) (k : String) : Option α :=
  match l with
  | [] => none
  | (k', v) :: t => if k' = k then some v else alGet t k

def alSet {α : Type} (k : String) (v : α) : List (String × α) → List (String × α)
  | [] => [(k, v)]
  | (k', v') :: t => if k' = k then (k', v) :: t else (k', v') :: alSet k v t

def alDelete {α : Type} (k : String) : List (String × α) → List (String × α)
  | [] => []
  | (k', v') :: t => if k' = k then t else (k', v') :: alDelete k t

/-- Keys of an association list. -/
def alKeys {α : Type} (l : List (String × α)) : List String := l.map Prod.fst

/-! ## Data model

`WNode` embeds the node objects built by `createNode` (workflow-builder.js
lines 200–225): identity, tool reference, display metadata, port name lists,
position, `config`, and the per-node connection maps
(`connections.inputs : Map portName → connectionId`,
`connections.outputs : Map portName → connectionId[]`).
`WConn` embeds the connection objects of `createConnection` (lines 378–393);
the always-empty `dataMapping` object is omitted.  `WState` is the builder
state: the two stores and the two id counters. -/

structure NodeConns where
  inputs : List (String × String)
  outputs : List (String × List String)
deriving DecidableEq, Repr

structure WNode where
  id : String
  toolId : String
  name : String
  icon : String
  category : String
  description : String
  inputs : List String
  outputs : List String
  x : Int
  y : Int
  config : List (String × String)
  connections : NodeConns
deriving DecidableEq, Repr

structure WConn where
  id : String
  startNode : String
  startPort : String
  endNode : String
  endPort : String
deriving DecidableEq, Repr

structure WState where
  nodes : List (String × WNode)
  conns : List (String × WConn)
  nodeIdCounter : Nat
  connectionIdCounter : Nat
deriving DecidableEq, Repr

/-- Tool palette entries (the `toolData` argument of `createNode`). -/
structure ToolData where
  id : String
  name : String
  icon : String
  category : String
  description : String
  inputs : List String
  outputs : List String
deriving DecidableEq, Repr

/-! ## String `includes`

`node.toolId.includes('trigger')` — contiguous-substring test on strings. -/

def hasInfixChars (pat : List Char) : List Char → Bool
  | [] => pat.isEmpty
  | c :: t => pat.isPrefixOf (c :: t) || hasInfixChars pat t

def strIncludes (hay pat : String) : Bool := hasInfixChars pat.data hay.data

/-! ## Graph model operations -/

/-- Node ids: `` `node_${this.nodeIdCounter++}` ``. -/
def mkNodeId (c : Nat) : String := "node_" ++ Nat.repr c

/-- Connection ids: `` `conn_${this.connectionIdCounter++}` ``. -/
def mkConnId (c : Nat) : String := "conn_" ++ Nat.repr c

/-- Embeds `createNode(toolData, x, y)` (lines 200–225): fresh id from the counter,
fields copied from the tool data, position clamped at 0, empty config and
empty connection maps. -/
def createNode (tool : ToolData) (x y : Int) (s : WState) : WNode × WState :=
  let nid := mkNodeId s.nodeIdCounter
  let node : WNode :=
    { id := nid, toolId := tool.id, name := tool.name, icon := tool.icon
    , category := tool.category, description := tool.description
    , inputs := tool.inputs, outputs := tool.outputs
    , x := max 0 x, y := max 0 y, config := [], connections := ⟨[], []⟩ }
  (node, { s with nodes := alSet nid node s.nodes, nodeIdCounter := s.nodeIdCounter + 1 })

/-- The `const node = this.nodes.get(k); if (node) { mutate node }` pattern:
update the node stored at key `k` in place, no-op when absent. -/
def updNode (k : String) (f : WNode → WNode) (l : List (String × WNode)) :
    List (String × WNode) :=
  match alGet l k with
  | none => l
  | some nd => alSet k (f nd) l

/-- Splice a connection id out of the output list at `port` (removeConnection,
lines 432–440): `indexOf` + `splice` removes the first occurrence and leaves
the (possibly now empty) list in the map. -/
def spliceOutput (port cid : String) (nd : WNode) : WNode :=
  match alGet nd.connections.outputs port with
  | none => nd
  | some l =>
    { nd with connections :=
        { nd.connections with outputs := alSet port (l.erase cid) nd.connections.outputs } }

/-- Embeds `endNode.connections.inputs.delete(connection.endPort)` (line 443). -/
def dropInput (port : String) (nd : WNode) : WNode :=
  { nd with connections :=
      { nd.connections with inputs := alDelete port nd.connections.inputs } }

/-- On `startNode.connections.outputs`: create the list for `port` if missing,
then push `cid` (lines 399–402, also importWorkflow lines 963–966). -/
def pushOutput (port cid : String) (nd : WNode) : WNode :=
  let l := (alGet nd.connections.outputs port).getD []
  { nd with connections :=
      { nd.connections with outputs := alSet port (l ++ [cid]) nd.connections.outputs } }

/-- Embeds `endNode.connections.inputs.set(endPort, connectionId)` (line 404). -/
def setInput (port cid : String) (nd : WNode) : WNode :=
  { nd with connections :=
      { nd.connections with inputs := alSet port cid nd.connections.inputs } }

/-- Embeds `removeConnection(connectionId)` (lines 424–454): no-op when the id is
unknown; otherwise splice the id from the source node's output list, delete
the target node's input entry for the connection's end port, and delete the
connection from the store. -/
def removeConnection (cid : String) (s : WState) : WState :=
  match alGet s.conns cid with
  | none => s
  | some c =>
    let s1 := { s with nodes := updNode c.startNode (spliceOutput c.startPort cid) s.nodes }
    let s2 := { s1 with nodes := updNode c.endNode (dropInput c.endPort) s1.nodes }
    { s2 with conns := alDelete cid s2.conns }

/-- Embeds `removeConnectionsToPort(nodeId, portName)` (lines 410–422): collect the
ids of every connection terminating at the given input port, then remove each. -/
def removeConnectionsToPort (nid port : String) (s : WState) : WState :=
  let toRemove :=
    (s.conns.filter (fun pr => decide (pr.2.endNode = nid ∧ pr.2.endPort = port))).map Prod.fst
  toRemove.foldl (fun s cid => removeConnection cid s) s

/-- Result of `createConnection`: the source throws a `TypeError` when an
endpoint node is missing (`startNode.connections` / `endNode.connections` on
`undefined`), *after* the store mutations already performed; `err` carries the
state at the throw point. -/
inductive CCResult where
  | ok (s : WState)
  | err (s : WState)
deriving DecidableEq, Repr

/-- The state carried by either outcome. -/
def CCResult.state : CCResult → WState
  | .ok s => s
  | .err s => s

/-- Embeds `createConnection(startNodeId, startPort, endNodeId, endPort)`
(lines 378–408), in source order: draw a fresh id from the counter, build the
connection, remove every connection already terminating at the target input
port, insert the new connection into the store, then update the source node's
output list and the target node's input entry.  The node lookups happen last:
a missing endpoint throws only after the store was already mutated. -/
def createConnection (a p b q : String) (s0 : WState) : CCResult :=
  let cid := mkConnId s0.connectionIdCounter
  let s1 := { s0 with connectionIdCounter := s0.connectionIdCounter + 1 }
  let conn : WConn := ⟨cid, a, p, b, q⟩
  let s2 := removeConnectionsToPort b q s1
  let s3 := { s2 with conns := alSet cid conn s2.conns }
  match alGet s3.nodes a with
  | none => .err s3
  | some an =>
    let s4 := { s3 with nodes := alSet a (pushOutput p cid an) s3.nodes }
    match alGet s4.nodes b with
    | none => .err s4
    | some bn => .ok { s4 with nodes := alSet b (setInput q cid bn) s4.nodes }

/-- Embeds `deleteNode(nodeId)` (lines 779–811, the confirmed branch): collect every
connection with the node as source or target, remove each, then delete the
node from the store. -/
def deleteNode (nid : String) (s : WState) : WState :=
  let toRemove :=
    (s.conns.filter (fun pr => decide (pr.2.startNode = nid ∨ pr.2.endNode = nid))).map Prod.fst
  let s1 := toRemove.foldl (fun s cid => removeConnection cid s) s
  { s1 with nodes := alDelete nid s1.nodes }

/-- Embeds `clearWorkflow()` (lines 976–985): empties both stores; the id counters
are left untouched. -/
def clearWorkflow (s : WState) : WState := { s with nodes := [], conns := [] }

/-! ## Validation (`validateWorkflow`, lines 860–919) -/

structure VIssue where
  nodeId : String
  message : String
deriving DecidableEq, Repr

structure VResult where
  errors : List VIssue
  warnings : List VIssue
deriving DecidableEq, Repr

/-- The successors the cycle scan traverses from a node: for each entry of the
node's `connections.outputs` map, each listed connection id that resolves in
the connection store contributes that connection's `endNode` (lines 879–888). -/
def succs (s : WState) (n : String) : List String :=
  match alGet s.nodes n with
  | none => []
  | some nd =>
    nd.connections.outputs.flatMap
      (fun pr => pr.2.filterMap (fun cid => (alGet s.conns cid).map (·.endNode)))

/-- The recursive `hasCycle` closure (lines 868–893): `stk` is the recursion
stack and `v` the visited set (both kept as lists used for membership; both
`Set`s are *shared* by all calls in the source and are threaded through here).
The recursion-stack test precedes the visited test, exactly as in the source.
On a `true` answer the early `return true` skips `recursionStack.delete`, so
the stack comes back with the current path still on it; the balancing
`recursionStack.delete(nodeId)` of the `false` path is `List.erase`.  The
fuel argument only bounds the recursion depth; `validateWorkflow` passes
`s.nodes.length + 1`, which the proofs below show is never exhausted. -/
def dfsVisit (s : WState) : Nat → String → List String → List String →
    Bool × List String × List String
  | 0, _, stk, v => (false, stk, v)
  | fuel + 1, n, stk, v =>
    if n ∈ stk then (true, stk, v)
    else if n ∈ v then (false, stk, v)
    else
      let r := (succs s n).foldl
        (fun acc m => if acc.1 then acc else dfsVisit s fuel m acc.2.1 acc.2.2)
        (false, n :: stk, n :: v)
      if r.1 then r else (false, r.2.1.erase n, r.2.2)

/-- The outer loop of the cycle check (lines 896–903): for each node key not
yet visited, run `hasCycle`; when it reports a cycle, push one
`Circular dependency detected` error naming that start node.  The visited set
*and the recursion stack* persist across iterations (one shared closure pair),
so stack contents leaked by an early cycle detection are seen by every later
traversal. -/
def cycleScan (s : WState) : List VIssue × List String × List String :=
  (alKeys s.nodes).foldl
    (fun acc nid =>
      if nid ∈ acc.2.2 then acc
      else
        let r := dfsVisit s (s.nodes.length + 1) nid acc.2.1 acc.2.2
        if r.1 then (acc.1 ++ [⟨nid, "Circular dependency detected"⟩], r.2)
        else (acc.1, r.2))
    ([], [], [])

/-- The orphan pass (lines 906–916): warn on a node whose two per-node port
maps are both empty, unless its `toolId` contains `'trigger'`.  Note the test
is on the *sizes of the maps*, not on the number of live connections. -/
def orphanWarnings (s : WState) : List VIssue :=
  s.nodes.foldl
    (fun acc pr =>
      if pr.2.connections.inputs.length = 0 ∧ pr.2.connections.outputs.length = 0 ∧
          strIncludes pr.2.toolId "trigger" = false
      then acc ++ [⟨pr.1, "Node has no connections"⟩]
      else acc)
    []

def validateWorkflow (s : WState) : VResult :=
  ⟨(cycleScan s).1, orphanWarnings s⟩

/-! ## Serialization (lines 921–974) -/

structure WDoc where
  nodes : List WNode
  connections : List WConn
  name : String
  description : String
  version : String
deriving DecidableEq, Repr

/-- Embeds `exportWorkflow()` (lines 921–934): the stores' values in order plus fixed
metadata (the `created` timestamp is wall-clock and omitted here). -/
def exportWorkflow (s : WState) : WDoc :=
  ⟨s.nodes.map Prod.snd, s.conns.map Prod.snd, "Untitled Workflow", "", "1.0"⟩

/-- Linking step of `importWorkflow` (lines 958–970): only when both endpoint
nodes are present are the per-node maps updated; the connection was already
stored either way. -/
def linkConn (c : WConn) (s : WState) : WState :=
  match alGet s.nodes c.startNode, alGet s.nodes c.endNode with
  | some _, some _ =>
    let s1 := { s with nodes := updNode c.startNode (pushOutput c.startPort c.id) s.nodes }
    { s1 with nodes := updNode c.endNode (setInput c.endPort c.id) s1.nodes }
  | _, _ => s

/-- Embeds `importWorkflow(workflowData)` (lines 936–974): clear, re-insert every
document node under its own `id` with fresh empty connection maps, then for
each document connection: store it under its `id`, and link it into the
endpoint nodes' maps when both endpoints exist.  No validation is performed. -/
def importWorkflow (doc : WDoc) (s : WState) : WState :=
  let s := clearWorkflow s
  let s := doc.nodes.foldl
    (fun s nd =>
      let node := { nd with connections := (⟨[], []⟩ : NodeConns) }
      { s with nodes := alSet node.id node s.nodes })
    s
  doc.connections.foldl
    (fun s c => linkConn c { s with conns := alSet c.id c s.conns })
    s

/-! ## Execution entry (`executeWorkflow`, lines 1132–1148)

The global `executeWorkflow` filters the nodes for a `toolId` containing
`'trigger'`.  With no trigger node it shows the warning notification
`'No trigger nodes found in workflow'` and returns without executing anything —
modelled as the `NoEntryPointError` outcome.  Otherwise it starts the (purely
visual) execution at the first trigger node. -/

inductive ExecErr where
  | NoEntryPointError
deriving DecidableEq, Repr

structure RunOutcome where
  error : Option ExecErr
  executed : List String
  state : WState
deriving DecidableEq, Repr

def executeWorkflow (s : WState) : RunOutcome :=
  match s.nodes.filter (fun pr => strIncludes pr.2.toolId "trigger") with
  | [] => ⟨some .NoEntryPointError, [], s⟩
  | t :: _ => ⟨none, [t.2.id], s⟩

/-! ## Operation sequences

Sequences of the public mutating operations (excluding `importWorkflow`),
for reasoning about identifier assignment across a session. -/

inductive WOp where
  | createNodeOp (tool : ToolData) (x y : Int)
  | createConnectionOp (a p b q : String)
  | deleteNodeOp (n : String)
  | removeConnectionOp (cid : String)
  | clearWorkflowOp
deriving DecidableEq, Repr

def applyOp (s : WState) : WOp → WState
  | .createNodeOp t x y => (createNode t x y s).2
  | .createConnectionOp a p b q => (createConnection a p b q s).state
  | .deleteNodeOp n => deleteNode n s
  | .removeConnectionOp cid => removeConnection cid s
  | .clearWorkflowOp => clearWorkflow s

def runOps (s : WState) (ops : List WOp) : WState := ops.foldl applyOp s

/-- The node id (if any) handed out by one operation from state `s`. -/
def nodeIdsOfOp (s : WState) : WOp → List String
  | .createNodeOp _ _ _ => [mkNodeId s.nodeIdCounter]
  | _ => []

/-- The connection id (if any) drawn by one operation from state `s` (the id
is drawn from the counter before any validity check). -/
def connIdsOfOp (s : WState) : WOp → List String
  | .createConnectionOp _ _ _ _ => [mkConnId s.connectionIdCounter]
  | _ => []

/-- The node ids handed out by the `createNode` steps of a sequence, in
order. -/
def assignedNodeIds (s : WState) : List WOp → List String
  | [] => []
  | op :: ops => nodeIdsOfOp s op ++ assignedNodeIds (applyOp s op) ops

/-- The connection ids drawn by the `createConnection` steps of a sequence, in
order. -/
def assignedConnIds (s : WState) : List WOp → List String
  | [] => []
  | op :: ops => connIdsOfOp s op ++ assignedConnIds (applyOp s op) ops

/-! ## Example catalog entries and example states

Concrete tool data copied from the palette (`loadAvailableTools`,
lines 46–155), and small states built by the embedded operations, used as
concrete inputs for witnesses and counterexamples. -/

def toolSmsSender : ToolData :=
  ⟨"sms_sender", "SMS Sender", "💬", "communication", "Send SMS messages",
   ["phone_number", "message", "module_id"], ["sms_sent", "delivery_status"]⟩

def toolWebhookTrigger : ToolData :=
  ⟨"webhook_trigger", "Webhook Trigger", "🔗", "trigger", "Trigger workflow from webhook",
   [], ["webhook_data", "timestamp"]⟩

def emptyState : WState := ⟨[], [], 0, 0⟩

/-- Two sms nodes `node_0`, `node_1` connected by `conn_0`
(`node_0.sms_sent → node_1.phone_number`). -/
def statePair : WState :=
  (createConnection "node_0" "sms_sent" "node_1" "phone_number"
    (createNode toolSmsSender 20 20 (createNode toolSmsSender 10 10 emptyState).2).2).state

/-- State `statePair` with the back edge `conn_1 : node_1.delivery_status →
node_0.phone_number` added, closing a 2-cycle. -/
def stateCycle : WState :=
  (createConnection "node_1" "delivery_status" "node_0" "phone_number" statePair).state

/-- State `stateCycle` extended with a third sms node `node_2` and the edge
`conn_2 : node_2.sms_sent → node_0.message`.  The scan from `node_0` detects
the 2-cycle and leaks `node_0`, `node_1` on the shared recursion stack, so the
later traversal from `node_2` hits the stale stack and is reported too. -/
def stateLeak : WState :=
  (createConnection "node_2" "sms_sent" "node_0" "message"
    (createNode toolSmsSender 30 30 stateCycle).2).state

/-- State `statePair` after `removeConnection('conn_0')`: no connections remain, but
`node_0` keeps the spliced-empty output list `("sms_sent", [])` in its
outputs map. -/
def stateSpliced : WState := removeConnection "conn_0" statePair

/-! ## Decimal representation: `Nat.repr` is injective

The generated ids are `"node_" ++ Nat.repr c` / `"conn_" ++ Nat.repr c`, so id
distinctness reduces to injectivity of `Nat.repr`.  We characterise
`Nat.toDigitsCore` by a structurally transparent digit function and prove that
injective. -/

def decDigits (n : Nat) : List Char :=
  if _h : n < 10 then [Nat.digitChar n]
  else decDigits (n / 10) ++ [Nat.digitChar (n % 10)]
decreasing_by exact Nat.div_lt_self (by omega) (by omega)

/-- A plain sms node literal (used for import documents). -/
def nodeLit (nid : String) : WNode :=
  ⟨nid, "sms_sender", "SMS Sender", "💬", "communication", "Send SMS messages",
   ["phone_number", "message", "module_id"], ["sms_sent", "delivery_status"],
   0, 0, [], ⟨[], []⟩⟩

/-- A document whose connection carries the id `conn_0` even though the
importing builder's connection counter still stands at 0. -/
def docCollide : WDoc :=
  ⟨[nodeLit "node_0", nodeLit "node_1"],
   [⟨"conn_0", "node_0", "sms_sent", "node_1", "message"⟩],
   "Untitled Workflow", "", "1.0"⟩

/-- Reachable state with a stored connection id colliding with the next
counter id: `importWorkflow` preserves document ids verbatim but leaves the
counters untouched. -/
def stateCollide : WState := importWorkflow docCollide emptyState

/-- Discriminator for the outcome of `createConnection`. -/
def CCResult.isErr : CCResult → Bool
  | .ok _ => false
  | .err _ => true

/-- A document with one node and one connection whose target node id (`ghost`)
does not occur among the document's nodes. -/
def docDangling : WDoc :=
  ⟨[nodeLit "node_0"],
   [⟨"conn_9", "node_0", "sms_sent", "ghost", "phone_number"⟩],
   "Untitled Workflow", "", "1.0"⟩

/-! ## C2: export/import round trip -/

/-- The observable part of a node: every field except the derived per-node
connection maps (which `importWorkflow` rebuilds from the connection list). -/
def nodeObs (nd : WNode) : WNode := { nd with connections := (⟨[], []⟩ : NodeConns) }

/-- The node store `importWorkflow` rebuilds from an exported document:
each exported node re-inserted under its own id with fresh empty connection
maps. -/
def importedNodes (s : WState) : List (String × WNode) :=
  (s.nodes.map Prod.snd).map
    (fun nd => (nd.id, { nd with connections := (⟨[], []⟩ : NodeConns) }))

/-- No per-node map of `nd` mentions the connection id `x`. -/
def noRef (x : String) (nd : WNode) : Prop :=
  (∀ q ∈ nd.connections.inputs, q.2 ≠ x) ∧ (∀ q ∈ nd.connections.outputs, x ∉ q.2)

/-! ## C3/C4: correctness of the cycle scan

The edge relation of the scan: `m ∈ succs s n` iff the traversal of
`hasCycle` steps from `n` to `m` (an id listed in `n`'s output map whose
connection resolves in the store, contributing its `endNode`). -/

/-- Reflexive-transitive reachability along the scan's edges. -/
inductive Reaches (s : WState) : String → String → Prop
  | refl (a : String) : Reaches s a a
  | head {a b c : String} : b ∈ succs s a → Reaches s b c → Reaches s a c

/-- A directed cycle through `y`: an edge out of `y` leading back to `y`. -/
def CycleAt (s : WState) (y : String) : Prop := ∃ m ∈ succs s y, Reaches s m y

/-- The graph contains at least one directed cycle. -/
def Cyclic (s : WState) : Prop := ∃ y, CycleAt s y

/-- Some cycle is reachable from `r`. -/
def ReachesCycle (s : WState) (r : String) : Prop := ∃ y, Reaches s r y ∧ CycleAt s y

/-- No cycle is reachable from `r`. -/
def Clean (s : WState) (r : String) : Prop := ¬ ReachesCycle s r

/-- Every listed node has a reachable cycle: the state of the recursion-stack
entries a detected cycle leaves behind. -/
def baseRC (s : WState) (l : List String) : Prop := ∀ m ∈ l, ReachesCycle s m

/-- Shape of the shared recursion stack when `hasCycle` is asked about `n`: a
(possibly empty) chain of current-path ancestors — each entry has an edge to
the node pushed after it, the top stepping to `n` — sitting on top of stale
entries leaked by earlier detections, each of which reaches a cycle. -/
def chainRC (s : WState) : List String → String → Prop
  | [], _ => True
  | a :: rest, n => (n ∈ succs s a ∧ chainRC s rest a) ∨ (ReachesCycle s a ∧ baseRC s rest)

/-- One fold step of the inner successor loop of `hasCycle`; the stack rides
in the accumulator. -/
def dfsStep (s : WState) (fuel : Nat) :
    Bool × List String × List String → String → Bool × List String × List String :=
  fun acc m => if acc.1 then acc else dfsVisit s fuel m acc.2.1 acc.2.2

/-- Post-processing of the inner loop's result: a `true` answer returns the
stack as it stands (the early `return true`), a `false` answer deletes the
current node from the stack. -/
def dfsWrap (n : String) (r : Bool × List String × List String) :
    Bool × List String × List String :=
  if r.1 then r else (false, r.2.1.erase n, r.2.2)

/-- Node-map keys not yet visited; bounds how much exploring `hasCycle` can
still do.  The fuel `s.nodes.length + 1` passed by `validateWorkflow` always
exceeds it. -/
def keysLeft (s : WState) (v : List String) : Nat :=
  ((alKeys s.nodes).filter (fun k => decide (k ∉ v))).length

/-- The visited-set invariant of the completeness argument: every visited node
off the recursion stack has no reachable cycle. -/
def PreClean (s : WState) (stk v : List String) : Prop := ∀ x ∈ v, x ∉ stk → Clean s x

/-- One step of the outer per-node loop of the cycle check; the accumulator
carries the errors, then the shared recursion stack and visited set. -/
def scanStep (s : WState) (acc : List VIssue × List String × List String)
    (nid : String) : List VIssue × List String × List String :=
  if nid ∈ acc.2.2 then acc
  else if (dfsVisit s (s.nodes.length + 1) nid acc.2.1 acc.2.2).1 then
    (acc.1 ++ [⟨nid, "Circular dependency detected"⟩],
     (dfsVisit s (s.nodes.length + 1) nid acc.2.1 acc.2.2).2)
  else (acc.1, (dfsVisit s (s.nodes.length + 1) nid acc.2.1 acc.2.2).2)

/-- Holds when `o = some c` with `P c`, decidably. -/
def optSat {α : Type} (o : Option α) (P : α → Prop) : Prop := ∃ c, o = some c ∧ P c

instance {α : Type} (o : Option α) (P : α → Prop) [DecidablePred P] :
    Decidable (optSat o P) :=
  match o with
  | none => isFalse (by rintro ⟨c, hc, _⟩; cases hc)
  | some a =>
    decidable_of_iff (P a)
      ⟨fun h => ⟨a, rfl, h⟩, by rintro ⟨c, hc, h⟩; cases hc; exact h⟩

/-- Per-node structural agreement with a connection store: map keys are
duplicate-free, each input entry resolves to a stored connection terminating
at exactly this node and port, and each id in an output list resolves to a
stored connection originating at this node and port. -/
def NodeOK (conns : List (String × WConn)) (x : String) (nd : WNode) : Prop :=
  (alKeys nd.connections.inputs).Nodup ∧
  (alKeys nd.connections.outputs).Nodup ∧
  (∀ q ∈ nd.connections.inputs,
    optSat (alGet conns q.2) (fun c => c.endNode = x ∧ c.endPort = q.1)) ∧
  (∀ q ∈ nd.connections.outputs, q.2.Nodup ∧
    ∀ cid ∈ q.2,
      optSat (alGet conns cid) (fun c => c.startNode = x ∧ c.startPort = q.1))

/-- The structural agreement every builder-reachable state enjoys between the
connection store and the per-node port maps. -/
def Consistent (s : WState) : Prop :=
  (alKeys s.nodes).Nodup ∧ (alKeys s.conns).Nodup ∧
  ∀ pr ∈ s.nodes, NodeOK s.conns pr.1 pr.2

/-- The combined per-node map update `removeConnection` performs on the node
stored under key `x` when removing connection `cid = c.id`. -/
def removeTouch (c : WConn) (cid : String) (x : String) (nd : WNode) : WNode :=
  (if x = c.endNode then dropInput c.endPort else id)
    ((if x = c.startNode then spliceOutput c.startPort cid else id) nd)

instance (conns : List (String × WConn)) (x : String) (nd : WNode) :
    Decidable (NodeOK conns x nd) := by
  unfold NodeOK
  infer_instance

instance (s : WState) : Decidable (Consistent s) := by
  unfold Consistent
  infer_instance

/-! ## Theorems -/

theorem decDigits_lt (n : Nat) (h : n < 10) : decDigits n = [Nat.digitChar n] := by
  rw [decDigits]
  exact dif_pos h

theorem decDigits_ge (n : Nat) (h : ¬ n < 10) :
    decDigits n = decDigits (n / 10) ++ [Nat.digitChar (n % 10)] := by
  rw [decDigits]
  exact dif_neg h

theorem decDigits_ne_nil (n : Nat) : decDigits n ≠ [] := by
  by_cases h : n < 10
  · rw [decDigits_lt n h]
    simp
  · rw [decDigits_ge n h]
    simp

theorem toDigitsCore_eq_decDigits :
    ∀ fuel n ds, n < fuel → Nat.toDigitsCore 10 fuel n ds = decDigits n ++ ds := by
  intro fuel
  induction fuel with
  | zero => intro n ds h; omega
  | succ fuel ih =>
    intro n ds h
    rw [Nat.toDigitsCore]
    by_cases h0 : n / 10 = 0
    · have hn : n < 10 := by omega
      rw [if_pos h0, decDigits_lt n hn, Nat.mod_eq_of_lt hn]
      simp
    · have hn : ¬ n < 10 := by
        intro hlt
        exact h0 (Nat.div_eq_of_lt hlt)
      rw [if_neg h0, ih (n / 10) _ (by omega), decDigits_ge n hn]
      simp

theorem repr_eq_decDigits (n : Nat) : Nat.repr n = (decDigits n).asString := by
  rw [Nat.repr, Nat.toDigits, toDigitsCore_eq_decDigits (n + 1) n [] (Nat.lt_succ_self n)]
  simp

theorem digitChar_inj_lt : ∀ a < 10, ∀ b < 10, Nat.digitChar a = Nat.digitChar b → a = b := by
  decide

theorem decDigits_inj : ∀ m n : Nat, decDigits m = decDigits n → m = n := by
  intro m
  induction m using Nat.strong_induction_on with
  | _ m ih =>
    intro n h
    by_cases hm : m < 10 <;> by_cases hn : n < 10
    · rw [decDigits_lt m hm, decDigits_lt n hn] at h
      exact digitChar_inj_lt m hm n hn (List.singleton_inj.mp h)
    · rw [decDigits_lt m hm, decDigits_ge n hn] at h
      cases hd : decDigits (n / 10) with
      | nil => exact absurd hd (decDigits_ne_nil (n / 10))
      | cons a l =>
        rw [hd] at h
        have hlen := congrArg List.length h
        rw [List.length_append] at hlen
        simp at hlen
    · rw [decDigits_ge m hm, decDigits_lt n hn] at h
      cases hd : decDigits (m / 10) with
      | nil => exact absurd hd (decDigits_ne_nil (m / 10))
      | cons a l =>
        rw [hd] at h
        have hlen := congrArg List.length h
        rw [List.length_append] at hlen
        simp at hlen
    · rw [decDigits_ge m hm, decDigits_ge n hn] at h
      obtain ⟨h1, h2⟩ := List.append_inj' h (by simp)
      have hmod : m % 10 = n % 10 :=
        digitChar_inj_lt _ (Nat.mod_lt _ (by omega)) _ (Nat.mod_lt _ (by omega))
          (List.singleton_inj.mp h2)
      have hdiv : m / 10 = n / 10 := ih (m / 10) (Nat.div_lt_self (by omega) (by omega)) _ h1
      omega

theorem nat_repr_inj {m n : Nat} (h : Nat.repr m = Nat.repr n) : m = n := by
  rw [repr_eq_decDigits, repr_eq_decDigits] at h
  exact decDigits_inj m n (by
    have := congrArg String.data h
    simpa using this)

theorem mkNodeId_inj {m n : Nat} (h : mkNodeId m = mkNodeId n) : m = n := by
  apply nat_repr_inj
  have := congrArg String.data h
  simp only [mkNodeId, String.data_append] at this
  have := List.append_cancel_left this
  exact String.ext this

theorem mkConnId_inj {m n : Nat} (h : mkConnId m = mkConnId n) : m = n := by
  apply nat_repr_inj
  have := congrArg String.data h
  simp only [mkConnId, String.data_append] at this
  have := List.append_cancel_left this
  exact String.ext this

/-! ## Counter behaviour of the operations -/

theorem removeConnection_counters (cid : String) (s : WState) :
    (removeConnection cid s).nodeIdCounter = s.nodeIdCounter ∧
    (removeConnection cid s).connectionIdCounter = s.connectionIdCounter := by
  unfold removeConnection
  cases alGet s.conns cid <;> exact ⟨rfl, rfl⟩

theorem foldRemove_counters (cids : List String) (s : WState) :
    ((cids.foldl (fun s cid => removeConnection cid s) s)).nodeIdCounter = s.nodeIdCounter ∧
    ((cids.foldl (fun s cid => removeConnection cid s) s)).connectionIdCounter =
      s.connectionIdCounter := by
  induction cids generalizing s with
  | nil => exact ⟨rfl, rfl⟩
  | cons c t ih =>
    simp only [List.foldl_cons]
    obtain ⟨h1, h2⟩ := ih (removeConnection c s)
    obtain ⟨h3, h4⟩ := removeConnection_counters c s
    exact ⟨h1.trans h3, h2.trans h4⟩

theorem removeConnectionsToPort_counters (nid port : String) (s : WState) :
    (removeConnectionsToPort nid port s).nodeIdCounter = s.nodeIdCounter ∧
    (removeConnectionsToPort nid port s).connectionIdCounter = s.connectionIdCounter :=
  foldRemove_counters _ s

theorem createConnection_counters (a p b q : String) (s : WState) :
    ((createConnection a p b q s).state).nodeIdCounter = s.nodeIdCounter ∧
    ((createConnection a p b q s).state).connectionIdCounter = s.connectionIdCounter + 1 := by
  unfold createConnection
  obtain ⟨h1, h2⟩ :=
    removeConnectionsToPort_counters b q { s with connectionIdCounter := s.connectionIdCounter + 1 }
  cases hget : alGet (removeConnectionsToPort b q
      { s with connectionIdCounter := s.connectionIdCounter + 1 }).nodes a with
  | none => simp only [hget, CCResult.state]; exact ⟨h1, h2⟩
  | some an =>
    cases hget2 : alGet (alSet a (pushOutput p (mkConnId s.connectionIdCounter) an)
        (removeConnectionsToPort b q
          { s with connectionIdCounter := s.connectionIdCounter + 1 }).nodes) b with
    | none => simp only [hget, hget2, CCResult.state]; exact ⟨h1, h2⟩
    | some bn => simp only [hget, hget2, CCResult.state]; exact ⟨h1, h2⟩

theorem deleteNode_counters (nid : String) (s : WState) :
    (deleteNode nid s).nodeIdCounter = s.nodeIdCounter ∧
    (deleteNode nid s).connectionIdCounter = s.connectionIdCounter := by
  unfold deleteNode
  exact foldRemove_counters _ s

theorem applyOp_counters_mono (s : WState) (op : WOp) :
    s.nodeIdCounter ≤ (applyOp s op).nodeIdCounter ∧
    s.connectionIdCounter ≤ (applyOp s op).connectionIdCounter := by
  cases op with
  | createNodeOp t x y => exact ⟨Nat.le_succ _, le_refl _⟩
  | createConnectionOp a p b q =>
    obtain ⟨h1, h2⟩ := createConnection_counters a p b q s
    exact ⟨le_of_eq h1.symm, by simp only [applyOp]; omega⟩
  | deleteNodeOp n =>
    obtain ⟨h1, h2⟩ := deleteNode_counters n s
    exact ⟨le_of_eq h1.symm, le_of_eq h2.symm⟩
  | removeConnectionOp cid =>
    obtain ⟨h1, h2⟩ := removeConnection_counters cid s
    exact ⟨le_of_eq h1.symm, le_of_eq h2.symm⟩
  | clearWorkflowOp => exact ⟨le_refl _, le_refl _⟩

theorem applyOp_createNode_counter (s : WState) (t : ToolData) (x y : Int) :
    (applyOp s (.createNodeOp t x y)).nodeIdCounter = s.nodeIdCounter + 1 := rfl

theorem applyOp_createConn_counter (s : WState) (a p b q : String) :
    (applyOp s (.createConnectionOp a p b q)).connectionIdCounter =
      s.connectionIdCounter + 1 :=
  (createConnection_counters a p b q s).2

theorem runOps_counters_mono (ops : List WOp) (s : WState) :
    s.nodeIdCounter ≤ (runOps s ops).nodeIdCounter ∧
    s.connectionIdCounter ≤ (runOps s ops).connectionIdCounter := by
  induction ops generalizing s with
  | nil => exact ⟨le_refl _, le_refl _⟩
  | cons op t ih =>
    obtain ⟨h1, h2⟩ := applyOp_counters_mono s op
    obtain ⟨h3, h4⟩ := ih (applyOp s op)
    exact ⟨h1.trans h3, h2.trans h4⟩

theorem mem_nodeIdsOfOp {s : WState} {op : WOp} {i : String} (h : i ∈ nodeIdsOfOp s op) :
    i = mkNodeId s.nodeIdCounter := by
  cases op with
  | createNodeOp t x y => simpa [nodeIdsOfOp] using h
  | createConnectionOp a p b q => simp [nodeIdsOfOp] at h
  | deleteNodeOp n => simp [nodeIdsOfOp] at h
  | removeConnectionOp c => simp [nodeIdsOfOp] at h
  | clearWorkflowOp => simp [nodeIdsOfOp] at h

theorem mem_connIdsOfOp {s : WState} {op : WOp} {i : String} (h : i ∈ connIdsOfOp s op) :
    i = mkConnId s.connectionIdCounter := by
  cases op with
  | createConnectionOp a p b q => simpa [connIdsOfOp] using h
  | createNodeOp t x y => simp [connIdsOfOp] at h
  | deleteNodeOp n => simp [connIdsOfOp] at h
  | removeConnectionOp c => simp [connIdsOfOp] at h
  | clearWorkflowOp => simp [connIdsOfOp] at h

theorem assignedNodeIds_ge : ∀ (ops : List WOp) (s : WState), ∀ i ∈ assignedNodeIds s ops,
    ∃ c, s.nodeIdCounter ≤ c ∧ i = mkNodeId c := by
  intro ops
  induction ops with
  | nil => intro s i hi; simp [assignedNodeIds] at hi
  | cons op t ih =>
    intro s i hi
    rw [assignedNodeIds] at hi
    rcases List.mem_append.mp hi with h | h
    · exact ⟨s.nodeIdCounter, le_refl _, mem_nodeIdsOfOp h⟩
    · obtain ⟨c, hc, he⟩ := ih (applyOp s op) i h
      exact ⟨c, le_trans (applyOp_counters_mono s op).1 hc, he⟩

theorem assignedConnIds_ge : ∀ (ops : List WOp) (s : WState), ∀ i ∈ assignedConnIds s ops,
    ∃ c, s.connectionIdCounter ≤ c ∧ i = mkConnId c := by
  intro ops
  induction ops with
  | nil => intro s i hi; simp [assignedConnIds] at hi
  | cons op t ih =>
    intro s i hi
    rw [assignedConnIds] at hi
    rcases List.mem_append.mp hi with h | h
    · exact ⟨s.connectionIdCounter, le_refl _, mem_connIdsOfOp h⟩
    · obtain ⟨c, hc, he⟩ := ih (applyOp s op) i h
      exact ⟨c, le_trans (applyOp_counters_mono s op).2 hc, he⟩

theorem assignedNodeIds_nodup : ∀ (ops : List WOp) (s : WState),
    (assignedNodeIds s ops).Nodup := by
  intro ops
  induction ops with
  | nil => intro s; simp [assignedNodeIds]
  | cons op t ih =>
    intro s
    rw [assignedNodeIds]
    cases op with
    | createNodeOp tool x y =>
      simp only [nodeIdsOfOp, List.singleton_append, List.nodup_cons]
      refine ⟨fun hmem => ?_, ih _⟩
      obtain ⟨c, hc, he⟩ := assignedNodeIds_ge t _ _ hmem
      rw [applyOp_createNode_counter] at hc
      have := mkNodeId_inj he
      omega
    | createConnectionOp a p b q => simpa [nodeIdsOfOp] using ih _
    | deleteNodeOp n => simpa [nodeIdsOfOp] using ih _
    | removeConnectionOp cid => simpa [nodeIdsOfOp] using ih _
    | clearWorkflowOp => simpa [nodeIdsOfOp] using ih _

theorem assignedConnIds_nodup : ∀ (ops : List WOp) (s : WState),
    (assignedConnIds s ops).Nodup := by
  intro ops
  induction ops with
  | nil => intro s; simp [assignedConnIds]
  | cons op t ih =>
    intro s
    rw [assignedConnIds]
    cases op with
    | createConnectionOp a p b q =>
      simp only [connIdsOfOp, List.singleton_append, List.nodup_cons]
      refine ⟨fun hmem => ?_, ih _⟩
      obtain ⟨c, hc, he⟩ := assignedConnIds_ge t _ _ hmem
      rw [applyOp_createConn_counter] at hc
      have := mkConnId_inj he
      omega
    | createNodeOp tool x y => simpa [connIdsOfOp] using ih _
    | deleteNodeOp n => simpa [connIdsOfOp] using ih _
    | removeConnectionOp cid => simpa [connIdsOfOp] using ih _
    | clearWorkflowOp => simpa [connIdsOfOp] using ih _

/-- C10: across any sequence of the public mutating operations (excluding
`importWorkflow`) — `createNode`, `createConnection`, `deleteNode`,
`removeConnection`, `clearWorkflow` — every node id assigned by `createNode`
is distinct from every node id assigned earlier, every connection id assigned
by `createConnection` is distinct from every connection id assigned earlier,
and the two id counters never decrease (deletions and `clearWorkflow` do not
reset them), so ids are never reused. -/
theorem ids_never_reused (s : WState) (ops : List WOp) :
    (assignedNodeIds s ops).Nodup ∧ (assignedConnIds s ops).Nodup ∧
    s.nodeIdCounter ≤ (runOps s ops).nodeIdCounter ∧
    s.connectionIdCounter ≤ (runOps s ops).connectionIdCounter :=
  ⟨assignedNodeIds_nodup ops s, assignedConnIds_nodup ops s,
   (runOps_counters_mono ops s).1, (runOps_counters_mono ops s).2⟩

/-- C9: on a graph with no trigger-category node (no node whose `toolId`
contains `'trigger'`), starting a run refuses with the no-entry-point outcome:
no node is executed and the graph state is unchanged. -/
theorem executeWorkflow_no_trigger (s : WState)
    (h : ∀ pr ∈ s.nodes, strIncludes pr.2.toolId "trigger" = false) :
    executeWorkflow s = ⟨some .NoEntryPointError, [], s⟩ := by
  unfold executeWorkflow
  have hf : s.nodes.filter (fun pr => strIncludes pr.2.toolId "trigger") = [] := by
    rw [List.filter_eq_nil_iff]
    intro pr hpr
    simp [h pr hpr]
  rw [hf]

theorem executeWorkflow_no_trigger_witness :
    (∀ pr ∈ statePair.nodes, strIncludes pr.2.toolId "trigger" = false) ∧
    executeWorkflow statePair = ⟨some .NoEntryPointError, [], statePair⟩ :=
  ⟨by decide, executeWorkflow_no_trigger statePair (by decide)⟩

/-! ## Association-list lemmas -/

theorem alGet_isSome_iff {α : Type} (l : List (String × α)) (k : String) :
    (alGet l k).isSome ↔ k ∈ alKeys l := by
  induction l with
  | nil => simp [alGet, alKeys]
  | cons pr t ih =>
    obtain ⟨k', v⟩ := pr
    by_cases h : k' = k
    · subst h
      simp [alGet, alKeys]
    · simp only [alGet, if_neg h, alKeys, List.map_cons, List.mem_cons]
      rw [ih]
      constructor
      · exact Or.inr
      · rintro (rfl | hm)
        · exact absurd rfl h
        · exact hm

theorem alGet_eq_none_iff {α : Type} (l : List (String × α)) (k : String) :
    alGet l k = none ↔ k ∉ alKeys l := by
  rw [← alGet_isSome_iff]
  cases alGet l k <;> simp

theorem alGet_mem {α : Type} {l : List (String × α)} {k : String} {v : α}
    (h : alGet l k = some v) : (k, v) ∈ l := by
  induction l with
  | nil => simp [alGet] at h
  | cons pr t ih =>
    obtain ⟨k', v'⟩ := pr
    by_cases hk : k' = k
    · subst hk
      rw [alGet, if_pos rfl] at h
      cases h
      exact List.mem_cons_self _ _
    · rw [alGet, if_neg hk] at h
      exact List.mem_cons_of_mem _ (ih h)

theorem mem_alGet {α : Type} {l : List (String × α)} {k : String} {v : α}
    (hnd : (alKeys l).Nodup) (h : (k, v) ∈ l) : alGet l k = some v := by
  induction l with
  | nil => simp at h
  | cons pr t ih =>
    obtain ⟨k', v'⟩ := pr
    simp only [alKeys, List.map_cons, List.nodup_cons] at hnd
    rcases List.mem_cons.mp h with he | hm
    · cases he
      rw [alGet, if_pos rfl]
    · have hk : k' ≠ k := by
        rintro rfl
        exact hnd.1 (List.mem_map.mpr ⟨(k', v), hm, rfl⟩)
      rw [alGet, if_neg hk]
      exact ih hnd.2 hm

theorem alSet_of_not_mem {α : Type} {l : List (String × α)} {k : String} (v : α)
    (h : k ∉ alKeys l) : alSet k v l = l ++ [(k, v)] := by
  induction l with
  | nil => rfl
  | cons pr t ih =>
    obtain ⟨k', v'⟩ := pr
    simp only [alKeys, List.map_cons, List.mem_cons] at h
    push_neg at h
    rw [alSet, if_neg (fun he => h.1 he.symm), ih h.2]
    rfl

theorem alKeys_alSet_of_mem {α : Type} {l : List (String × α)} {k : String} (v : α)
    (h : k ∈ alKeys l) : alKeys (alSet k v l) = alKeys l := by
  induction l with
  | nil => simp [alKeys] at h
  | cons pr t ih =>
    obtain ⟨k', v'⟩ := pr
    by_cases hk : k' = k
    · subst hk
      rw [alSet, if_pos rfl]
      rfl
    · simp only [alKeys, List.map_cons, List.mem_cons] at h
      rcases h with he | hm
      · exact absurd he.symm hk
      · rw [alSet, if_neg hk]
        simp only [alKeys, List.map_cons]
        rw [show List.map Prod.fst (alSet k v t) = alKeys (alSet k v t) from rfl, ih hm]
        rfl

theorem alGet_alSet_self {α : Type} (l : List (String × α)) (k : String) (v : α) :
    alGet (alSet k v l) k = some v := by
  induction l with
  | nil => simp [alSet, alGet]
  | cons pr t ih =>
    obtain ⟨k', v'⟩ := pr
    by_cases hk : k' = k
    · subst hk
      rw [alSet, if_pos rfl, alGet, if_pos rfl]
    · rw [alSet, if_neg hk, alGet, if_neg hk]
      exact ih

theorem alGet_alSet_ne {α : Type} (l : List (String × α)) {k k' : String} (v : α)
    (h : k' ≠ k) : alGet (alSet k v l) k' = alGet l k' := by
  induction l with
  | nil =>
    rw [alSet, alGet, alGet, if_neg (fun he => h he.symm)]
    rfl
  | cons pr t ih =>
    obtain ⟨k'', v'⟩ := pr
    by_cases hk : k'' = k
    · subst hk
      rw [alSet, if_pos rfl, alGet, alGet]
      have : ¬ k'' = k' := fun he => h (he.symm)
      rw [if_neg this, if_neg this]
    · rw [alSet, if_neg hk, alGet, alGet]
      by_cases h2 : k'' = k'
      · rw [if_pos h2, if_pos h2]
      · rw [if_neg h2, if_neg h2]
        exact ih

theorem alDelete_of_not_mem {α : Type} {l : List (String × α)} {k : String}
    (h : k ∉ alKeys l) : alDelete k l = l := by
  induction l with
  | nil => rfl
  | cons pr t ih =>
    obtain ⟨k', v'⟩ := pr
    simp only [alKeys, List.map_cons, List.mem_cons] at h
    push_neg at h
    rw [alDelete, if_neg (fun he => h.1 he.symm), ih h.2]

theorem alDelete_cons_ne {α : Type} (t : List (String × α)) {k k' : String} (v : α)
    (h : k' ≠ k) : alDelete k' ((k, v) :: t) = (k, v) :: alDelete k' t := by
  rw [alDelete, if_neg (fun he => h he.symm)]

/-! ## The connection store under cascaded removals -/

theorem foldDelete_cons {α : Type} (ks : List String) (t : List (String × α))
    (k : String) (v : α) (h : ∀ k' ∈ ks, k' ≠ k) :
    ks.foldl (fun acc k' => alDelete k' acc) ((k, v) :: t) =
      (k, v) :: ks.foldl (fun acc k' => alDelete k' acc) t := by
  induction ks generalizing t with
  | nil => rfl
  | cons k' ks ih =>
    simp only [List.foldl_cons]
    rw [alDelete_cons_ne t v (h k' (List.mem_cons_self _ _))]
    exact ih (alDelete k' t) (fun x hx => h x (List.mem_cons_of_mem _ hx))

/-- Removing, by key, exactly the entries satisfying `p` from a
duplicate-free-keyed association list leaves the entries not satisfying
`p`, in order. -/
theorem foldDelete_filter {α : Type} (p : (String × α) → Bool) :
    ∀ (l : List (String × α)), (alKeys l).Nodup →
    (alKeys (l.filter p)).foldl (fun acc k => alDelete k acc) l =
      l.filter (fun pr => !(p pr)) := by
  intro l
  induction l with
  | nil => intro _; rfl
  | cons pr t ih =>
    intro hnd
    obtain ⟨k, v⟩ := pr
    simp only [alKeys, List.map_cons, List.nodup_cons] at hnd
    by_cases hp : p (k, v)
    · rw [List.filter_cons_of_pos hp]
      simp only [alKeys, List.map_cons, List.foldl_cons]
      rw [show alDelete k ((k, v) :: t) = t from by rw [alDelete, if_pos rfl]]
      rw [show List.map Prod.fst (List.filter p t) = alKeys (t.filter p) from rfl, ih hnd.2]
      rw [List.filter_cons_of_neg (by simp [hp])]
    · rw [List.filter_cons_of_neg hp]
      have hne : ∀ k' ∈ alKeys (t.filter p), k' ≠ k := by
        intro k' hk' he
        rw [he] at hk'
        apply hnd.1
        obtain ⟨⟨k2, v2⟩, hm, he2⟩ := List.mem_map.mp hk'
        exact List.mem_map.mpr ⟨(k2, v2), (List.mem_filter.mp hm).1, he2⟩
      rw [foldDelete_cons _ _ _ _ hne, ih hnd.2, List.filter_cons_of_pos (by simp [hp])]

theorem removeConnection_conns (cid : String) (s : WState) :
    (removeConnection cid s).conns = alDelete cid s.conns := by
  unfold removeConnection
  cases h : alGet s.conns cid with
  | none => exact (alDelete_of_not_mem ((alGet_eq_none_iff _ _).mp h)).symm
  | some c => rfl

theorem foldRemove_conns (cids : List String) (s : WState) :
    (cids.foldl (fun s cid => removeConnection cid s) s).conns =
      cids.foldl (fun l cid => alDelete cid l) s.conns := by
  induction cids generalizing s with
  | nil => rfl
  | cons c t ih =>
    simp only [List.foldl_cons]
    rw [ih (removeConnection c s), removeConnection_conns]

/-- Lemma: `removeConnectionsToPort` removes from the store exactly the connections
terminating at the given input port (keys assumed duplicate-free, as for every
`Map`). -/
theorem removeConnectionsToPort_conns (nid port : String) (s : WState)
    (hnd : (alKeys s.conns).Nodup) :
    (removeConnectionsToPort nid port s).conns =
      s.conns.filter (fun pr => !(decide (pr.2.endNode = nid ∧ pr.2.endPort = port))) := by
  unfold removeConnectionsToPort
  rw [foldRemove_conns]
  exact foldDelete_filter _ s.conns hnd

theorem updNode_alKeys (k : String) (f : WNode → WNode) (l : List (String × WNode)) :
    alKeys (updNode k f l) = alKeys l := by
  unfold updNode
  cases h : alGet l k with
  | none => rfl
  | some nd =>
    exact alKeys_alSet_of_mem _ ((alGet_isSome_iff l k).mp (by rw [h]; rfl))

theorem removeConnection_nodes_alKeys (cid : String) (s : WState) :
    alKeys (removeConnection cid s).nodes = alKeys s.nodes := by
  unfold removeConnection
  cases alGet s.conns cid with
  | none => rfl
  | some c => rw [updNode_alKeys, updNode_alKeys]

theorem foldRemove_nodes_alKeys (cids : List String) (s : WState) :
    alKeys (cids.foldl (fun s cid => removeConnection cid s) s).nodes = alKeys s.nodes := by
  induction cids generalizing s with
  | nil => rfl
  | cons c t ih =>
    simp only [List.foldl_cons]
    rw [ih (removeConnection c s), removeConnection_nodes_alKeys]

theorem removeConnectionsToPort_nodes_alKeys (nid port : String) (s : WState) :
    alKeys (removeConnectionsToPort nid port s).nodes = alKeys s.nodes :=
  foldRemove_nodes_alKeys _ s

/-! ## C1: connecting into an input port -/

/-- C1 (amended): on a graph whose connection keys are duplicate-free, whenever both
endpoint nodes exist and the id drawn from the connection counter is unused,
`createConnection` succeeds, and afterwards the connection store consists of
exactly the old connections *not* terminating at `(b, q)` followed by the new
connection under its fresh id; in particular exactly one stored connection
terminates at `(b, q)`, namely the new one. -/
theorem createConnection_supersedes_unique (s : WState) (a p b q : String)
    (hnd : (alKeys s.conns).Nodup)
    (ha : (alGet s.nodes a).isSome) (hb : (alGet s.nodes b).isSome)
    (hfresh : alGet s.conns (mkConnId s.connectionIdCounter) = none) :
    ∃ s', createConnection a p b q s = .ok s' ∧
      s'.conns =
        s.conns.filter (fun pr => !(decide (pr.2.endNode = b ∧ pr.2.endPort = q))) ++
          [(mkConnId s.connectionIdCounter,
            ⟨mkConnId s.connectionIdCounter, a, p, b, q⟩)] ∧
      (∀ pr ∈ s'.conns, (pr.2.endNode = b ∧ pr.2.endPort = q) ↔
        pr = (mkConnId s.connectionIdCounter,
          ⟨mkConnId s.connectionIdCounter, a, p, b, q⟩)) ∧
      mkConnId s.connectionIdCounter ∉ alKeys s.conns := by
  have hfreshK : mkConnId s.connectionIdCounter ∉ alKeys s.conns :=
    (alGet_eq_none_iff _ _).mp hfresh
  set cid := mkConnId s.connectionIdCounter with hcid
  set s1 : WState := { s with connectionIdCounter := s.connectionIdCounter + 1 } with hs1
  set s2 := removeConnectionsToPort b q s1 with hs2
  have hs2conns : s2.conns =
      s.conns.filter (fun pr => !(decide (pr.2.endNode = b ∧ pr.2.endPort = q))) :=
    removeConnectionsToPort_conns b q s1 hnd
  have hs2keys : alKeys s2.nodes = alKeys s.nodes :=
    removeConnectionsToPort_nodes_alKeys b q s1
  have haK : a ∈ alKeys s2.nodes := by
    rw [hs2keys, ← alGet_isSome_iff]
    exact ha
  have hbK : b ∈ alKeys s2.nodes := by
    rw [hs2keys, ← alGet_isSome_iff]
    exact hb
  obtain ⟨an, han⟩ := Option.isSome_iff_exists.mp ((alGet_isSome_iff s2.nodes a).mpr haK)
  have hbK4 : b ∈ alKeys (alSet a (pushOutput p cid an) s2.nodes) := by
    rw [alKeys_alSet_of_mem _ haK]
    exact hbK
  obtain ⟨bn, hbn⟩ := Option.isSome_iff_exists.mp
    ((alGet_isSome_iff (alSet a (pushOutput p cid an) s2.nodes) b).mpr hbK4)
  have hrun : createConnection a p b q s =
      .ok { s2 with
            conns := alSet cid ⟨cid, a, p, b, q⟩ s2.conns,
            nodes := alSet b (setInput q cid bn) (alSet a (pushOutput p cid an) s2.nodes) } := by
    unfold createConnection
    dsimp only
    split
    · next h => exact absurd (h.symm.trans han) (by simp)
    · next an' h =>
      have he : an' = an := by
        have h2 := h.symm.trans han
        injection h2
      subst he
      split
      · next h2 => exact absurd (h2.symm.trans hbn) (by simp)
      · next bn' h2 =>
        have he2 : bn' = bn := by
          have h3 := h2.symm.trans hbn
          injection h3
        subst he2
        rfl
  have hconns : alSet cid (⟨cid, a, p, b, q⟩ : WConn) s2.conns =
      s.conns.filter (fun pr => !(decide (pr.2.endNode = b ∧ pr.2.endPort = q))) ++
        [(cid, ⟨cid, a, p, b, q⟩)] := by
    rw [hs2conns, alSet_of_not_mem]
    intro hmem
    apply hfreshK
    obtain ⟨⟨k2, v2⟩, hm, he2⟩ := List.mem_map.mp hmem
    exact List.mem_map.mpr ⟨(k2, v2), (List.mem_filter.mp hm).1, he2⟩
  refine ⟨_, hrun, hconns, ?_, hfreshK⟩
  intro pr hpr
  have hpr2 : pr ∈ alSet cid (⟨cid, a, p, b, q⟩ : WConn) s2.conns := hpr
  rw [hconns] at hpr2
  constructor
  · intro hterm
    rcases List.mem_append.mp hpr2 with hmem | hmem
    · have := (List.mem_filter.mp hmem).2
      simp only [Bool.not_eq_true', decide_eq_false_iff_not] at this
      exact absurd hterm this
    · simpa using hmem
  · rintro rfl
    exact ⟨rfl, rfl⟩

theorem createConnection_supersedes_unique_witness :
    ((alKeys statePair.conns).Nodup ∧ (alGet statePair.nodes "node_0").isSome ∧
      (alGet statePair.nodes "node_1").isSome ∧
      alGet statePair.conns (mkConnId statePair.connectionIdCounter) = none) ∧
    (∃ s', createConnection "node_0" "delivery_status" "node_1" "phone_number" statePair =
        .ok s' ∧
      s'.conns =
        statePair.conns.filter
            (fun pr => !(decide (pr.2.endNode = "node_1" ∧ pr.2.endPort = "phone_number"))) ++
          [(mkConnId statePair.connectionIdCounter,
            ⟨mkConnId statePair.connectionIdCounter, "node_0", "delivery_status",
             "node_1", "phone_number"⟩)] ∧
      (∀ pr ∈ s'.conns,
        (pr.2.endNode = "node_1" ∧ pr.2.endPort = "phone_number") ↔
          pr = (mkConnId statePair.connectionIdCounter,
            ⟨mkConnId statePair.connectionIdCounter, "node_0", "delivery_status",
             "node_1", "phone_number"⟩)) ∧
      mkConnId statePair.connectionIdCounter ∉ alKeys statePair.conns) :=
  ⟨⟨by decide, by decide, by decide, by decide⟩,
   createConnection_supersedes_unique statePair "node_0" "delivery_status" "node_1"
     "phone_number" (by decide) (by decide) (by decide) (by decide)⟩

/-- C1 counterexample: on `stateCollide` — reached through an import — both
endpoint nodes exist, yet the id `createConnection` draws next
(`conn_0`) already names a stored connection, so the new connection's id is
*not* fresh; worse, performing the connect into `(node_1, phone_number)`
silently overwrites the unrelated stored connection `conn_0`, which terminated
at `(node_1, message)`, a port the operation was not allowed to touch. -/
theorem createConnection_fresh_id_cex :
    (alGet stateCollide.nodes "node_0").isSome ∧
    (alGet stateCollide.nodes "node_1").isSome ∧
    mkConnId stateCollide.connectionIdCounter ∈ alKeys stateCollide.conns ∧
    ((alGet stateCollide.conns "conn_0").map (·.endPort)) = some "message" ∧
    (∀ pr ∈ (createConnection "node_0" "sms_sent" "node_1" "phone_number"
        stateCollide).state.conns, pr.2.endPort ≠ "message") := by
  decide

/-- C7: a connect operation that fails on a structural error mutates the
graph.  On `statePair`, whose port `(node_1, phone_number)` is occupied by
`conn_0`, calling `createConnection('ghost', 'out', 'node_1', 'phone_number')`
with a source node absent from the graph throws (modelled by the `err`
outcome) — but only *after* it already removed the previously stored `conn_0`
and inserted the new dangling `conn_1` into the connection store, so the
failed operation leaves the store changed. -/
theorem createConnection_missing_source_corrupts :
    alGet statePair.nodes "ghost" = none ∧
    (alGet statePair.nodes "node_1").isSome ∧
    (alGet statePair.conns "conn_0").isSome ∧
    (createConnection "ghost" "out" "node_1" "phone_number" statePair).isErr = true ∧
    alGet (createConnection "ghost" "out" "node_1" "phone_number" statePair).state.conns
      "conn_0" = none ∧
    ((alGet (createConnection "ghost" "out" "node_1" "phone_number" statePair).state.conns
      "conn_1").map (·.startNode)) = some "ghost" ∧
    (createConnection "ghost" "out" "node_1" "phone_number" statePair).state.conns ≠
      statePair.conns := by
  decide

/-- C5: the orphan pass misses nodes whose connections were all removed.
After the history `createNode; createNode; createConnection; removeConnection`
(state `stateSpliced`), the connection store is empty — `node_0` has zero
incoming and zero outgoing connections and its tool is not a trigger — yet no
`NoConnections` warning mentions `node_0`: the splice left the empty entry
`("sms_sent", [])` in its outputs map and the check tests map sizes.  The
symmetric target node `node_1`, whose input entry was properly deleted, *is*
warned. -/
theorem orphan_warning_missed_after_removal :
    stateSpliced.conns = [] ∧
    strIncludes "sms_sender" "trigger" = false ∧
    ((alGet stateSpliced.nodes "node_0").map (fun nd => nd.connections.outputs)) =
      some [("sms_sent", [])] ∧
    (∀ w ∈ (validateWorkflow stateSpliced).warnings, w.nodeId ≠ "node_0") ∧
    (∃ w ∈ (validateWorkflow stateSpliced).warnings, w.nodeId = "node_1") := by
  decide

/-- C8 counterexample: importing a document with a connection referencing an
absent node id does not fail — the dangling connection is retained verbatim in
the connection store after the import. -/
theorem import_dangling_retained_cex :
    (∀ nd ∈ docDangling.nodes, nd.id ≠ "ghost") ∧
    alGet (importWorkflow docDangling emptyState).conns "conn_9" =
      some ⟨"conn_9", "node_0", "sms_sent", "ghost", "phone_number"⟩ := by
  decide

theorem alKeys_alSet_not_mem {α : Type} {l : List (String × α)} {k : String} (v : α)
    (h : k ∉ alKeys l) : alKeys (alSet k v l) = alKeys l ++ [k] := by
  rw [alSet_of_not_mem v h]
  simp [alKeys]

theorem alSet_map_of_get {α β : Type} {l : List (String × α)} {k : String} {nd : α} (w : α)
    (g : (String × α) → β) (h : alGet l k = some nd) (hg : g (k, w) = g (k, nd)) :
    (alSet k w l).map g = l.map g := by
  induction l with
  | nil => simp [alGet] at h
  | cons pr t ih =>
    obtain ⟨k', v'⟩ := pr
    by_cases hk : k' = k
    · subst hk
      rw [alGet, if_pos rfl] at h
      cases h
      rw [alSet, if_pos rfl]
      simp only [List.map_cons]
      rw [hg]
    · rw [alGet, if_neg hk] at h
      rw [alSet, if_neg hk]
      simp only [List.map_cons]
      rw [ih h]

theorem updNode_map_of_obs {β : Type} (f : WNode → WNode) (g : (String × WNode) → β)
    (hf : ∀ k nd, g (k, f nd) = g (k, nd)) (k : String) (l : List (String × WNode)) :
    (updNode k f l).map g = l.map g := by
  unfold updNode
  cases h : alGet l k with
  | none => rfl
  | some nd => exact alSet_map_of_get (f nd) g h (hf k nd)

theorem linkConn_conns (c : WConn) (s : WState) : (linkConn c s).conns = s.conns := by
  unfold linkConn
  split <;> rfl

theorem linkConn_nodes_obs (c : WConn) (s : WState) :
    (linkConn c s).nodes.map (fun pr => (pr.1, nodeObs pr.2)) =
      s.nodes.map (fun pr => (pr.1, nodeObs pr.2)) := by
  unfold linkConn
  split
  · show (updNode c.endNode _ (updNode c.startNode _ s.nodes)).map _ = _
    rw [updNode_map_of_obs (setInput c.endPort c.id) (fun pr => (pr.1, nodeObs pr.2))
          (fun k nd => rfl),
        updNode_map_of_obs (pushOutput c.startPort c.id) (fun pr => (pr.1, nodeObs pr.2))
          (fun k nd => rfl)]
  · rfl

theorem linkConn_nodes_alKeys (c : WConn) (s : WState) :
    alKeys (linkConn c s).nodes = alKeys s.nodes := by
  unfold linkConn
  split
  · show alKeys (updNode c.endNode _ (updNode c.startNode _ s.nodes)) = _
    rw [updNode_alKeys, updNode_alKeys]
  · rfl

theorem importNodes_fold (nds : List WNode) :
    ∀ (s : WState), (∀ nd ∈ nds, nd.id ∉ alKeys s.nodes) → (nds.map WNode.id).Nodup →
    (nds.foldl (fun s nd =>
        { s with nodes :=
            alSet nd.id { nd with connections := (⟨[], []⟩ : NodeConns) } s.nodes }) s) =
      { s with nodes := s.nodes ++
          nds.map (fun nd => (nd.id, { nd with connections := (⟨[], []⟩ : NodeConns) })) } := by
  induction nds with
  | nil => intro s _ _; simp
  | cons nd t ih =>
    intro s hdisj hnd
    simp only [List.map_cons, List.nodup_cons] at hnd
    simp only [List.foldl_cons]
    rw [ih _ ?_ hnd.2]
    · simp only [List.map_cons]
      rw [alSet_of_not_mem _ (hdisj nd (List.mem_cons_self _ _))]
      rw [List.append_assoc]
      rfl
    · intro nd' hnd'
      rw [alKeys_alSet_not_mem _ (hdisj nd (List.mem_cons_self _ _))]
      intro hmem
      rcases List.mem_append.mp hmem with hmem | hmem
      · exact hdisj nd' (List.mem_cons_of_mem _ hnd') hmem
      · apply hnd.1
        rw [show nd.id = nd'.id from (List.mem_singleton.mp hmem).symm]
        exact List.mem_map.mpr ⟨nd', hnd', rfl⟩

theorem importConns_fold_conns (cs : List WConn) :
    ∀ (s : WState), (∀ c ∈ cs, c.id ∉ alKeys s.conns) → (cs.map WConn.id).Nodup →
    (cs.foldl (fun s c => linkConn c { s with conns := alSet c.id c s.conns }) s).conns =
      s.conns ++ cs.map (fun c => (c.id, c)) := by
  induction cs with
  | nil => intro s _ _; simp
  | cons c t ih =>
    intro s hdisj hnd
    simp only [List.map_cons, List.nodup_cons] at hnd
    simp only [List.foldl_cons]
    rw [ih _ ?_ hnd.2]
    · rw [linkConn_conns]
      show alSet c.id c s.conns ++ _ = _
      rw [alSet_of_not_mem _ (hdisj c (List.mem_cons_self _ _))]
      rw [List.append_assoc]
      rfl
    · intro c' hc'
      rw [linkConn_conns]
      show c'.id ∉ alKeys (alSet c.id c s.conns)
      rw [alKeys_alSet_not_mem _ (hdisj c (List.mem_cons_self _ _))]
      intro hmem
      rcases List.mem_append.mp hmem with hmem | hmem
      · exact hdisj c' (List.mem_cons_of_mem _ hc') hmem
      · apply hnd.1
        rw [show c.id = c'.id from (List.mem_singleton.mp hmem).symm]
        exact List.mem_map.mpr ⟨c', hc', rfl⟩

theorem importConns_fold_nodes_obs (cs : List WConn) :
    ∀ (s : WState),
    (cs.foldl (fun s c => linkConn c { s with conns := alSet c.id c s.conns }) s).nodes.map
        (fun pr => (pr.1, nodeObs pr.2)) =
      s.nodes.map (fun pr => (pr.1, nodeObs pr.2)) := by
  induction cs with
  | nil => intro s; rfl
  | cons c t ih =>
    intro s
    simp only [List.foldl_cons]
    rw [ih _, linkConn_nodes_obs]

/-- C2: importing the document produced by exporting a graph yields an
observably identical graph: the connection store is reproduced verbatim
(same ids, same source/target node and port fields, in order), and the node
store carries the same keys with every observable node field (id, toolId,
name, icon, category, description, port name lists, position, config)
unchanged; identifiers are preserved verbatim from the document.  The
well-formedness hypotheses state that the two stores are genuine maps (keys
duplicate-free, each value's `id` equal to its key), which holds of every
state the builder constructs. -/
theorem import_export_roundtrip (s : WState)
    (hn1 : (alKeys s.nodes).Nodup) (hn2 : ∀ pr ∈ s.nodes, pr.2.id = pr.1)
    (hc1 : (alKeys s.conns).Nodup) (hc2 : ∀ pr ∈ s.conns, pr.2.id = pr.1) :
    (importWorkflow (exportWorkflow s) s).conns = s.conns ∧
    (importWorkflow (exportWorkflow s) s).nodes.map (fun pr => (pr.1, nodeObs pr.2)) =
      s.nodes.map (fun pr => (pr.1, nodeObs pr.2)) := by
  have hidsN : (s.nodes.map Prod.snd).map WNode.id = alKeys s.nodes := by
    rw [List.map_map]
    exact List.map_congr_left hn2
  have hidsC : (s.conns.map Prod.snd).map WConn.id = alKeys s.conns := by
    rw [List.map_map]
    exact List.map_congr_left hc2
  have hstage1 :
      ((exportWorkflow s).nodes.foldl (fun s nd =>
        { s with nodes :=
            alSet nd.id { nd with connections := (⟨[], []⟩ : NodeConns) } s.nodes })
        (clearWorkflow s)) =
      { clearWorkflow s with nodes := importedNodes s } := by
    rw [importNodes_fold]
    · rw [importedNodes]
      rfl
    · intro nd _ hmem
      simp [clearWorkflow, alKeys] at hmem
    · show ((s.nodes.map Prod.snd).map WNode.id).Nodup
      rw [hidsN]
      exact hn1
  have hrun : importWorkflow (exportWorkflow s) s =
      (exportWorkflow s).connections.foldl
        (fun s c => linkConn c { s with conns := alSet c.id c s.conns })
        { clearWorkflow s with nodes := importedNodes s } := by
    unfold importWorkflow
    dsimp only
    rw [hstage1]
  constructor
  · rw [hrun, importConns_fold_conns]
    · show [] ++ (s.conns.map Prod.snd).map (fun c => (c.id, c)) = s.conns
      rw [List.nil_append, List.map_map]
      have : s.conns.map ((fun c => (c.id, c)) ∘ Prod.snd) =
          s.conns.map (fun pr => (pr.1, pr.2)) :=
        List.map_congr_left (fun pr hpr => by
          show (pr.2.id, pr.2) = (pr.1, pr.2)
          rw [hc2 pr hpr])
      rw [this]
      simp
    · intro c _ hmem
      simp [clearWorkflow, alKeys] at hmem
    · show ((s.conns.map Prod.snd).map WConn.id).Nodup
      rw [hidsC]
      exact hc1
  · rw [hrun, importConns_fold_nodes_obs]
    show (importedNodes s).map (fun pr => (pr.1, nodeObs pr.2)) = _
    rw [importedNodes, List.map_map, List.map_map]
    exact List.map_congr_left (fun pr hpr => by
      show (pr.2.id, nodeObs { pr.2 with connections := (⟨[], []⟩ : NodeConns) }) =
        (pr.1, nodeObs pr.2)
      rw [hn2 pr hpr]
      rfl)

theorem import_export_roundtrip_witness :
    ((alKeys statePair.nodes).Nodup ∧ (∀ pr ∈ statePair.nodes, pr.2.id = pr.1) ∧
      (alKeys statePair.conns).Nodup ∧ (∀ pr ∈ statePair.conns, pr.2.id = pr.1)) ∧
    ((importWorkflow (exportWorkflow statePair) statePair).conns = statePair.conns ∧
      (importWorkflow (exportWorkflow statePair) statePair).nodes.map
          (fun pr => (pr.1, nodeObs pr.2)) =
        statePair.nodes.map (fun pr => (pr.1, nodeObs pr.2))) :=
  ⟨⟨by decide, by decide, by decide, by decide⟩,
   import_export_roundtrip statePair (by decide) (by decide) (by decide) (by decide)⟩

/-! ## C8: importing documents with dangling connections -/

theorem mem_alSet {α : Type} {l : List (String × α)} {k : String} {v : α}
    {pr : String × α} (h : pr ∈ alSet k v l) : pr ∈ l ∨ pr = (k, v) := by
  induction l with
  | nil =>
    rw [alSet] at h
    exact Or.inr (List.mem_singleton.mp h)
  | cons pr' t ih =>
    obtain ⟨k', v'⟩ := pr'
    by_cases hk : k' = k
    · subst hk
      rw [alSet, if_pos rfl] at h
      rcases List.mem_cons.mp h with he | hm
      · exact Or.inr (by rw [he])
      · exact Or.inl (List.mem_cons_of_mem _ hm)
    · rw [alSet, if_neg hk] at h
      rcases List.mem_cons.mp h with he | hm
      · exact Or.inl (by rw [he]; exact List.mem_cons_self _ _)
      · rcases ih hm with hm2 | he2
        · exact Or.inl (List.mem_cons_of_mem _ hm2)
        · exact Or.inr he2

theorem mem_alKeys_alSet {α : Type} {l : List (String × α)} {k0 k : String} {v : α}
    (h : k ∈ alKeys (alSet k0 v l)) : k = k0 ∨ k ∈ alKeys l := by
  obtain ⟨⟨k2, v2⟩, hm, he⟩ := List.mem_map.mp h
  rcases mem_alSet hm with hm2 | he2
  · exact Or.inr (he ▸ List.mem_map.mpr ⟨(k2, v2), hm2, rfl⟩)
  · cases he2
    exact Or.inl he.symm

theorem pushOutput_noRef {x : String} {nd : WNode} (port cid : String)
    (h : noRef x nd) (hcid : cid ≠ x) : noRef x (pushOutput port cid nd) := by
  refine ⟨h.1, ?_⟩
  intro q hq
  rcases mem_alSet hq with hm | he
  · exact h.2 q hm
  · subst he
    intro hx
    rcases List.mem_append.mp hx with hx | hx
    · cases hget : alGet nd.connections.outputs port with
      | none => rw [hget] at hx; simp at hx
      | some l0 =>
        rw [hget] at hx
        exact h.2 (port, l0) (alGet_mem hget) hx
    · exact hcid (List.mem_singleton.mp hx).symm

theorem setInput_noRef {x : String} {nd : WNode} (port cid : String)
    (h : noRef x nd) (hcid : cid ≠ x) : noRef x (setInput port cid nd) := by
  refine ⟨?_, h.2⟩
  intro q hq
  rcases mem_alSet hq with hm | he
  · exact h.1 q hm
  · subst he
    exact hcid

theorem updNode_noRef {x : String} {f : WNode → WNode} {l : List (String × WNode)}
    (hf : ∀ nd, noRef x nd → noRef x (f nd))
    (hl : ∀ pr ∈ l, noRef x pr.2) (k : String) :
    ∀ pr ∈ updNode k f l, noRef x pr.2 := by
  intro pr hpr
  unfold updNode at hpr
  cases hget : alGet l k with
  | none => exact hl pr (by rwa [hget] at hpr)
  | some nd =>
    rw [hget] at hpr
    rcases mem_alSet hpr with hm | he
    · exact hl pr hm
    · rw [he]
      exact hf nd (hl (k, nd) (alGet_mem hget))

theorem linkConn_noRef {x : String} {c : WConn} {s : WState} (hcid : c.id ≠ x)
    (h : ∀ pr ∈ s.nodes, noRef x pr.2) : ∀ pr ∈ (linkConn c s).nodes, noRef x pr.2 := by
  unfold linkConn
  split
  · show ∀ pr ∈ updNode c.endNode _ (updNode c.startNode _ s.nodes), _
    exact updNode_noRef (fun nd hnd => setInput_noRef _ _ hnd hcid)
      (updNode_noRef (fun nd hnd => pushOutput_noRef _ _ hnd hcid) h _) _
  · exact h

theorem linkConn_skip {c : WConn} {s : WState}
    (h : alGet s.nodes c.startNode = none ∨ alGet s.nodes c.endNode = none) :
    linkConn c s = s := by
  unfold linkConn
  split
  · next h1 h2 =>
    rcases h with h | h
    · rw [h1] at h
      cases h
    · rw [h2] at h
      cases h
  · rfl

theorem importLink_fold_inv (ids : List String) (x : String) :
    ∀ (cs : List WConn) (s : WState),
      (∀ k ∈ alKeys s.nodes, k ∈ ids) →
      (∀ pr ∈ s.nodes, noRef x pr.2) →
      (∀ c' ∈ cs, c'.id = x →
        (∀ i ∈ ids, i ≠ c'.startNode) ∨ (∀ i ∈ ids, i ≠ c'.endNode)) →
      (∀ k ∈ alKeys ((cs.foldl
          (fun s c => linkConn c { s with conns := alSet c.id c s.conns }) s)).nodes,
        k ∈ ids) ∧
      (∀ pr ∈ ((cs.foldl
          (fun s c => linkConn c { s with conns := alSet c.id c s.conns }) s)).nodes,
        noRef x pr.2) := by
  intro cs
  induction cs with
  | nil => intro s hk hr _; exact ⟨hk, hr⟩
  | cons c t ih =>
    intro s hk hr hdang
    simp only [List.foldl_cons]
    set smid : WState := { s with conns := alSet c.id c s.conns } with hsmid
    have hmidnodes : smid.nodes = s.nodes := rfl
    have hk1 : ∀ k ∈ alKeys (linkConn c smid).nodes, k ∈ ids := by
      intro k hkm
      rw [linkConn_nodes_alKeys, hmidnodes] at hkm
      exact hk k hkm
    have hr1 : ∀ pr ∈ (linkConn c smid).nodes, noRef x pr.2 := by
      by_cases hcx : c.id = x
      · have hskip : linkConn c smid = smid := by
          apply linkConn_skip
          rcases hdang c (List.mem_cons_self _ _) hcx with hd | hd
          · left
            rw [hmidnodes, alGet_eq_none_iff]
            intro hmem
            exact hd c.startNode (hk _ hmem) rfl
          · right
            rw [hmidnodes, alGet_eq_none_iff]
            intro hmem
            exact hd c.endNode (hk _ hmem) rfl
        rw [hskip]
        intro pr hpr
        exact hr pr hpr
      · exact linkConn_noRef hcx (by rw [hmidnodes]; exact hr)
    exact ih (linkConn c smid) hk1 hr1
      (fun c' hc' => hdang c' (List.mem_cons_of_mem _ hc'))

theorem importConns_fold_get_preserved (cs : List WConn) :
    ∀ (s : WState) (x : String) (v : WConn), (∀ c ∈ cs, c.id ≠ x) →
      alGet s.conns x = some v →
      alGet ((cs.foldl
        (fun s c => linkConn c { s with conns := alSet c.id c s.conns }) s)).conns x =
        some v := by
  induction cs with
  | nil => intro s x v _ h; exact h
  | cons c t ih =>
    intro s x v hne h
    simp only [List.foldl_cons]
    apply ih _ _ _ (fun c' hc' => hne c' (List.mem_cons_of_mem _ hc'))
    rw [linkConn_conns]
    show alGet (alSet c.id c s.conns) x = some v
    rw [alGet_alSet_ne _ _ (fun he => hne c (List.mem_cons_self _ _) he.symm)]
    exact h

theorem importConns_fold_get (cs : List WConn) :
    ∀ (s : WState) (c : WConn), c ∈ cs → (cs.map WConn.id).Nodup →
      alGet ((cs.foldl
        (fun s c' => linkConn c' { s with conns := alSet c'.id c' s.conns }) s)).conns c.id =
        some c := by
  induction cs with
  | nil => intro s c hc _; simp at hc
  | cons c' t ih =>
    intro s c hc hnd
    simp only [List.map_cons, List.nodup_cons] at hnd
    simp only [List.foldl_cons]
    rcases List.mem_cons.mp hc with rfl | hm
    · apply importConns_fold_get_preserved
      · intro c2 hc2 he
        exact hnd.1 (he ▸ List.mem_map.mpr ⟨c2, hc2, rfl⟩)
      · rw [linkConn_conns]
        exact alGet_alSet_self _ _ _
    · exact ih _ c hm hnd.2

theorem importNodes_fold_keys (nds : List WNode) :
    ∀ (s : WState), ∀ k ∈ alKeys ((nds.foldl (fun s nd =>
        { s with nodes :=
            alSet nd.id { nd with connections := (⟨[], []⟩ : NodeConns) } s.nodes }) s)).nodes,
      k ∈ alKeys s.nodes ∨ k ∈ nds.map WNode.id := by
  induction nds with
  | nil => intro s k hk; exact Or.inl hk
  | cons nd t ih =>
    intro s k hk
    simp only [List.foldl_cons] at hk
    rcases ih _ k hk with hk2 | hk2
    · rcases mem_alKeys_alSet hk2 with he | hk3
      · exact Or.inr (by rw [he]; exact List.mem_map.mpr ⟨nd, List.mem_cons_self _ _, rfl⟩)
      · exact Or.inl hk3
    · exact Or.inr (List.mem_map.mpr
        (by obtain ⟨nd2, hnd2, he⟩ := List.mem_map.mp hk2
            exact ⟨nd2, List.mem_cons_of_mem _ hnd2, he⟩))

theorem importNodes_fold_empty (nds : List WNode) :
    ∀ (s : WState), (∀ pr ∈ s.nodes, pr.2.connections = (⟨[], []⟩ : NodeConns)) →
      ∀ pr ∈ ((nds.foldl (fun s nd =>
          { s with nodes :=
              alSet nd.id { nd with connections := (⟨[], []⟩ : NodeConns) } s.nodes }) s)).nodes,
        pr.2.connections = (⟨[], []⟩ : NodeConns) := by
  induction nds with
  | nil => intro s h; exact h
  | cons nd t ih =>
    intro s h
    simp only [List.foldl_cons]
    apply ih
    intro pr hpr
    rcases mem_alSet hpr with hm | he
    · exact h pr hm
    · rw [he]

/-- C8 (amended): `importWorkflow` performs no validation and never fails.  A
document connection one of whose endpoint node ids does not occur among the
document's nodes is nevertheless stored verbatim in the connection store after
the import — but it is linked into no node's per-port maps. -/
theorem importWorkflow_dangling (doc : WDoc) (s : WState) (c : WConn)
    (hnd : (doc.connections.map WConn.id).Nodup)
    (hc : c ∈ doc.connections)
    (hdang : (∀ nd ∈ doc.nodes, nd.id ≠ c.startNode) ∨
      (∀ nd ∈ doc.nodes, nd.id ≠ c.endNode)) :
    alGet (importWorkflow doc s).conns c.id = some c ∧
    ∀ pr ∈ (importWorkflow doc s).nodes,
      (∀ q ∈ pr.2.connections.inputs, q.2 ≠ c.id) ∧
      (∀ q ∈ pr.2.connections.outputs, c.id ∉ q.2) := by
  have hrun : importWorkflow doc s =
      doc.connections.foldl
        (fun s c => linkConn c { s with conns := alSet c.id c s.conns })
        (doc.nodes.foldl (fun s nd =>
          { s with nodes :=
              alSet nd.id { nd with connections := (⟨[], []⟩ : NodeConns) } s.nodes })
          (clearWorkflow s)) := by
    unfold importWorkflow
    dsimp only
  set s1 := doc.nodes.foldl (fun s nd =>
      { s with nodes :=
          alSet nd.id { nd with connections := (⟨[], []⟩ : NodeConns) } s.nodes })
    (clearWorkflow s) with hs1
  have hkeys1 : ∀ k ∈ alKeys s1.nodes, k ∈ doc.nodes.map WNode.id := by
    intro k hk
    rcases importNodes_fold_keys doc.nodes (clearWorkflow s) k hk with hk2 | hk2
    · simp [clearWorkflow, alKeys] at hk2
    · exact hk2
  have hempty1 : ∀ pr ∈ s1.nodes, noRef c.id pr.2 := by
    intro pr hpr
    have := importNodes_fold_empty doc.nodes (clearWorkflow s)
      (by intro pr hpr; simp [clearWorkflow] at hpr) pr hpr
    constructor
    · intro q hq
      rw [this] at hq
      simp at hq
    · intro q hq
      rw [this] at hq
      simp at hq
  have hdang2 : ∀ c' ∈ doc.connections, c'.id = c.id →
      (∀ i ∈ doc.nodes.map WNode.id, i ≠ c'.startNode) ∨
      (∀ i ∈ doc.nodes.map WNode.id, i ≠ c'.endNode) := by
    intro c' hc' he
    have hcc : c' = c := List.inj_on_of_nodup_map hnd hc' hc he
    subst hcc
    rcases hdang with hd | hd
    · left
      intro i hi
      obtain ⟨nd, hndm, hei⟩ := List.mem_map.mp hi
      exact hei ▸ hd nd hndm
    · right
      intro i hi
      obtain ⟨nd, hndm, hei⟩ := List.mem_map.mp hi
      exact hei ▸ hd nd hndm
  obtain ⟨_, hnoRef⟩ :=
    importLink_fold_inv (doc.nodes.map WNode.id) c.id doc.connections s1 hkeys1 hempty1 hdang2
  refine ⟨?_, ?_⟩
  · rw [hrun]
    exact importConns_fold_get doc.connections s1 c hc hnd
  · intro pr hpr
    rw [hrun] at hpr
    exact hnoRef pr hpr

theorem importWorkflow_dangling_witness :
    ((docDangling.connections.map WConn.id).Nodup ∧
      (⟨"conn_9", "node_0", "sms_sent", "ghost", "phone_number"⟩ : WConn) ∈
        docDangling.connections ∧
      (∀ nd ∈ docDangling.nodes, nd.id ≠ "ghost")) ∧
    (alGet (importWorkflow docDangling emptyState).conns "conn_9" =
        some ⟨"conn_9", "node_0", "sms_sent", "ghost", "phone_number"⟩ ∧
      ∀ pr ∈ (importWorkflow docDangling emptyState).nodes,
        (∀ q ∈ pr.2.connections.inputs, q.2 ≠ "conn_9") ∧
        (∀ q ∈ pr.2.connections.outputs, "conn_9" ∉ q.2)) :=
  ⟨⟨by decide, by decide, by decide⟩,
   importWorkflow_dangling docDangling emptyState
     ⟨"conn_9", "node_0", "sms_sent", "ghost", "phone_number"⟩
     (by decide) (by decide) (Or.inr (by decide))⟩

theorem reaches_snoc {s : WState} {a b c : String} (h : Reaches s a b)
    (hc : c ∈ succs s b) : Reaches s a c := by
  induction h with
  | refl a => exact Reaches.head hc (Reaches.refl c)
  | head hb _ ih => exact Reaches.head hb (ih hc)

theorem clean_of_succs_clean {s : WState} {n : String}
    (h : ∀ m ∈ succs s n, Clean s m) : Clean s n := by
  rintro ⟨y, hr, hcy⟩
  cases hr with
  | refl =>
    obtain ⟨m, hm, hmy⟩ := hcy
    exact h m hm ⟨n, hmy, m, hm, hmy⟩
  | head hb hby => exact h _ hb ⟨y, hby, hcy⟩

theorem succs_nil_of_not_mem {s : WState} {n : String} (h : n ∉ alKeys s.nodes) :
    succs s n = [] := by
  unfold succs
  rw [(alGet_eq_none_iff _ _).mpr h]

theorem mem_keys_of_succs_ne_nil {s : WState} {n : String} (h : succs s n ≠ []) :
    n ∈ alKeys s.nodes := by
  by_contra hmem
  exact h (succs_nil_of_not_mem hmem)

theorem clean_of_no_succs {s : WState} {n : String} (h : succs s n = []) : Clean s n := by
  rintro ⟨y, hr, hcy⟩
  cases hr with
  | refl =>
    obtain ⟨m, hm, _⟩ := hcy
    rw [h] at hm
    cases hm
  | head hb _ =>
    rw [h] at hb
    cases hb

theorem reaches_trans {s : WState} {a b c : String} (h1 : Reaches s a b)
    (h2 : Reaches s b c) : Reaches s a c := by
  induction h1 with
  | refl a => exact h2
  | head hb _ ih => exact Reaches.head hb (ih h2)

/-- Stepping along one edge into a cycle-reaching node still reaches the
cycle. -/
theorem rc_step {s : WState} {x y : String} (hy : y ∈ succs s x)
    (h : ReachesCycle s y) : ReachesCycle s x := by
  obtain ⟨c, hr, hc⟩ := h
  exact ⟨c, Reaches.head hy hr, hc⟩

/-- Any entry of a stack of the `chainRC` shape either already reaches a cycle
(a stale entry) or has an edge onto the current path leading down to the
queried node. -/
theorem chainRC_mem {s : WState} :
    ∀ {stk : List String} {n x : String}, chainRC s stk n → x ∈ stk →
      ReachesCycle s x ∨ ∃ y ∈ succs s x, Reaches s y n := by
  intro stk
  induction stk with
  | nil => intro n x _ hx; cases hx
  | cons a rest ih =>
    intro n x hchain hx
    rcases hchain with ⟨hm, hrest⟩ | ⟨hrc, hbase⟩
    · rcases List.mem_cons.mp hx with rfl | hx2
      · exact Or.inr ⟨n, hm, Reaches.refl n⟩
      · rcases ih hrest hx2 with hrc2 | ⟨y, hy, hya⟩
        · exact Or.inl hrc2
        · exact Or.inr ⟨y, hy, reaches_snoc hya hm⟩
    · rcases List.mem_cons.mp hx with rfl | hx2
      · exact Or.inl hrc
      · exact Or.inl (hbase x hx2)

/-- A stack whose every entry reaches a cycle has the `chainRC` shape (empty
chain part) regardless of the queried node. -/
theorem chainRC_of_baseRC {s : WState} {stk : List String} {n : String}
    (h : baseRC s stk) : chainRC s stk n := by
  cases stk with
  | nil => trivial
  | cons a rest =>
    exact Or.inr ⟨h a (List.mem_cons_self _ _), fun m hm => h m (List.mem_cons_of_mem _ hm)⟩

theorem dfsVisit_succ (s : WState) (fuel : Nat) (n : String) (stk v : List String) :
    dfsVisit s (fuel + 1) n stk v =
      if n ∈ stk then (true, stk, v)
      else if n ∈ v then (false, stk, v)
      else dfsWrap n ((succs s n).foldl (dfsStep s fuel) (false, n :: stk, n :: v)) := rfl

theorem dfsWrap_v (n : String) (r : Bool × List String × List String) :
    (dfsWrap n r).2.2 = r.2.2 := by
  unfold dfsWrap
  by_cases hb : r.1 = true
  · rw [if_pos hb]
  · rw [if_neg hb]

theorem fold_true_stable {s : WState} {fuel : Nat} :
    ∀ (ms : List String) (acc : Bool × List String × List String), acc.1 = true →
      ms.foldl (dfsStep s fuel) acc = acc := by
  intro ms
  induction ms with
  | nil => intro acc _; rfl
  | cons m t ih =>
    intro acc h
    simp only [List.foldl_cons, dfsStep, h, if_true]
    exact ih acc h

/-- The inner successor loop leaves the stack alone when it comes back
`false`: every `add` below it was matched by a `delete`. -/
theorem dfsList_false_stk (s : WState) (fuel : Nat)
    (IH : ∀ (n : String) (stk v : List String), (dfsVisit s fuel n stk v).1 = false →
      (dfsVisit s fuel n stk v).2.1 = stk) :
    ∀ (ms : List String) (stk0 v0 : List String),
      (ms.foldl (dfsStep s fuel) (false, stk0, v0)).1 = false →
      (ms.foldl (dfsStep s fuel) (false, stk0, v0)).2.1 = stk0 := by
  intro ms
  induction ms with
  | nil => intro stk0 v0 _; rfl
  | cons m t ih =>
    intro stk0 v0 h
    simp only [List.foldl_cons, dfsStep,
      if_neg (by simp : ¬ (((false, stk0, v0) : Bool × List String × List String).1 = true))]
      at h ⊢
    cases hb : (dfsVisit s fuel m stk0 v0).1 with
    | true =>
      have hpair : dfsVisit s fuel m stk0 v0 = (true, (dfsVisit s fuel m stk0 v0).2) :=
        Prod.ext hb rfl
      rw [hpair, fold_true_stable t _ rfl] at h
      simp at h
    | false =>
      have hpair : dfsVisit s fuel m stk0 v0 =
          (false, stk0, (dfsVisit s fuel m stk0 v0).2.2) :=
        Prod.ext hb (Prod.ext (IH m stk0 v0 hb) rfl)
      rw [hpair] at h ⊢
      exact ih stk0 _ h

/-- A `false` answer from `hasCycle` restores the recursion stack it was
given. -/
theorem dfs_false_stk (s : WState) :
    ∀ (fuel : Nat) (n : String) (stk v : List String),
      (dfsVisit s fuel n stk v).1 = false → (dfsVisit s fuel n stk v).2.1 = stk := by
  intro fuel
  induction fuel with
  | zero => intro n stk v _; rfl
  | succ fuel ih =>
    intro n stk v h
    rw [dfsVisit_succ] at h ⊢
    by_cases hstk : n ∈ stk
    · rw [if_pos hstk] at h
      simp at h
    · rw [if_neg hstk] at h ⊢
      by_cases hv : n ∈ v
      · rw [if_pos hv]
      · rw [if_neg hv] at h ⊢
        unfold dfsWrap at h ⊢
        cases hr : ((succs s n).foldl (dfsStep s fuel) (false, n :: stk, n :: v)).1 with
        | true =>
          rw [if_pos hr] at h
          rw [h] at hr
          cases hr
        | false =>
          rw [if_neg Bool.false_ne_true]
          have h21 := dfsList_false_stk s fuel ih (succs s n) (n :: stk) (n :: v) hr
          show (((succs s n).foldl (dfsStep s fuel) (false, n :: stk, n :: v)).2.1).erase n = stk
          rw [h21, List.erase_cons_head]

/-- The inner successor loop, soundness side: if some successor call comes
back `true`, the current node reaches a cycle and so does every node the loop
leaves on the stack. -/
theorem dfsList_sound (s : WState) (fuel : Nat) (n : String) (stk : List String)
    (hchain : chainRC s stk n)
    (IH : ∀ (m : String) (stk2 v2 : List String), chainRC s stk2 m →
      (dfsVisit s fuel m stk2 v2).1 = true →
      ReachesCycle s m ∧ ∀ x ∈ (dfsVisit s fuel m stk2 v2).2.1, ReachesCycle s x) :
    ∀ (ms : List String) (v0 : List String), (∀ m ∈ ms, m ∈ succs s n) →
      (ms.foldl (dfsStep s fuel) (false, n :: stk, v0)).1 = true →
      ReachesCycle s n ∧
        ∀ x ∈ (ms.foldl (dfsStep s fuel) (false, n :: stk, v0)).2.1, ReachesCycle s x := by
  intro ms
  induction ms with
  | nil => intro v0 _ h; simp at h
  | cons m t ih =>
    intro v0 hms h
    have hm : m ∈ succs s n := hms m (List.mem_cons_self _ _)
    have hchain2 : chainRC s (n :: stk) m := Or.inl ⟨hm, hchain⟩
    simp only [List.foldl_cons, dfsStep,
      if_neg (by simp : ¬ (((false, n :: stk, v0) : Bool × List String × List String).1 = true))]
      at h ⊢
    cases hb : (dfsVisit s fuel m (n :: stk) v0).1 with
    | true =>
      obtain ⟨hrcm, hstkrc⟩ := IH m (n :: stk) v0 hchain2 hb
      have hpair : dfsVisit s fuel m (n :: stk) v0 =
          (true, (dfsVisit s fuel m (n :: stk) v0).2) := Prod.ext hb rfl
      rw [hpair, fold_true_stable t _ rfl]
      exact ⟨rc_step hm hrcm, fun x hx => hstkrc x hx⟩
    | false =>
      have hpair : dfsVisit s fuel m (n :: stk) v0 =
          (false, n :: stk, (dfsVisit s fuel m (n :: stk) v0).2.2) :=
        Prod.ext hb (Prod.ext (dfs_false_stk s fuel m (n :: stk) v0 hb) rfl)
      rw [hpair] at h ⊢
      exact ih _ (fun x hx => hms x (List.mem_cons_of_mem _ hx)) h

/-- Soundness of `hasCycle` on the shared stack: a `true` answer, asked with a
stack of current-path ancestors over cycle-reaching stale entries, means the
queried node reaches a cycle — and so does every node left on the stack. -/
theorem dfs_true_sound (s : WState) :
    ∀ (fuel : Nat) (n : String) (stk v : List String), chainRC s stk n →
      (dfsVisit s fuel n stk v).1 = true →
      ReachesCycle s n ∧ ∀ x ∈ (dfsVisit s fuel n stk v).2.1, ReachesCycle s x := by
  intro fuel
  induction fuel with
  | zero =>
    intro n stk v _ h
    simp [dfsVisit] at h
  | succ fuel ih =>
    intro n stk v hchain h
    rw [dfsVisit_succ] at h ⊢
    by_cases hstk : n ∈ stk
    · rw [if_pos hstk] at h ⊢
      have hrcn : ReachesCycle s n := by
        rcases chainRC_mem hchain hstk with hrc | ⟨y, hy, hyr⟩
        · exact hrc
        · exact ⟨n, Reaches.refl n, y, hy, hyr⟩
      refine ⟨hrcn, ?_⟩
      intro x hx
      rcases chainRC_mem hchain hx with hrc | ⟨y, hy, hyr⟩
      · exact hrc
      · obtain ⟨c, hnc, hcy⟩ := hrcn
        exact ⟨c, Reaches.head hy (reaches_trans hyr hnc), hcy⟩
    · rw [if_neg hstk] at h ⊢
      by_cases hv : n ∈ v
      · rw [if_pos hv] at h
        simp at h
      · rw [if_neg hv] at h ⊢
        unfold dfsWrap at h ⊢
        cases hr : ((succs s n).foldl (dfsStep s fuel) (false, n :: stk, n :: v)).1 with
        | false =>
          rw [if_neg (by rw [hr]; exact Bool.false_ne_true)] at h
          simp at h
        | true =>
          rw [if_pos rfl]
          exact dfsList_sound s fuel n stk hchain ih (succs s n) (n :: v)
            (fun m hm => hm) hr

theorem length_filter_mono {α : Type} (l : List α) (p q : α → Bool)
    (h : ∀ a ∈ l, p a = true → q a = true) :
    (l.filter p).length ≤ (l.filter q).length := by
  induction l with
  | nil => exact Nat.le_refl _
  | cons a t ih =>
    have iht := ih (fun x hx => h x (List.mem_cons_of_mem _ hx))
    cases hp : p a with
    | true =>
      rw [List.filter_cons_of_pos hp, List.filter_cons_of_pos (h a (List.mem_cons_self _ _) hp)]
      simpa using iht
    | false =>
      rw [List.filter_cons_of_neg (by simp [hp])]
      cases hq : q a with
      | true =>
        rw [List.filter_cons_of_pos hq]
        exact Nat.le_succ_of_le iht
      | false =>
        rw [List.filter_cons_of_neg (by simp [hq])]
        exact iht

theorem length_filter_lt {α : Type} [DecidableEq α] :
    ∀ (l : List α) (p q : α → Bool) (a : α),
      (∀ x ∈ l, p x = true → q x = true) → a ∈ l → p a = false → q a = true →
      (l.filter p).length < (l.filter q).length := by
  intro l
  induction l with
  | nil => intro p q a _ ha; cases ha
  | cons x t ih =>
    intro p q a h ha hpa hqa
    rcases List.mem_cons.mp ha with rfl | hat
    · rw [List.filter_cons_of_neg (by simp [hpa]), List.filter_cons_of_pos hqa]
      exact Nat.lt_succ_of_le
        (length_filter_mono t p q (fun y hy => h y (List.mem_cons_of_mem _ hy)))
    · have iht := ih p q a (fun y hy => h y (List.mem_cons_of_mem _ hy)) hat hpa hqa
      cases hp : p x with
      | true =>
        rw [List.filter_cons_of_pos hp, List.filter_cons_of_pos (h x (List.mem_cons_self _ _) hp)]
        simpa using iht
      | false =>
        rw [List.filter_cons_of_neg (by simp [hp])]
        cases hq : q x with
        | true =>
          rw [List.filter_cons_of_pos hq]
          exact Nat.lt_succ_of_le (Nat.le_of_lt iht)
        | false =>
          rw [List.filter_cons_of_neg (by simp [hq])]
          exact iht

theorem keysLeft_le (s : WState) (v : List String) : keysLeft s v ≤ s.nodes.length := by
  unfold keysLeft
  calc ((alKeys s.nodes).filter _).length ≤ (alKeys s.nodes).length :=
        List.length_filter_le _ _
    _ = s.nodes.length := List.length_map _ _

theorem keysLeft_antitone (s : WState) {v v' : List String} (h : v ⊆ v') :
    keysLeft s v' ≤ keysLeft s v := by
  apply length_filter_mono
  intro k _ hk
  simp only [decide_eq_true_eq] at hk ⊢
  intro hkv
  exact hk (h hkv)

theorem keysLeft_lt (s : WState) {v : List String} {n : String}
    (hn : n ∈ alKeys s.nodes) (hv : n ∉ v) : keysLeft s (n :: v) < keysLeft s v := by
  apply length_filter_lt _ _ _ n
  · intro k _ hk
    simp only [decide_eq_true_eq] at hk ⊢
    intro hkv
    exact hk (List.mem_cons_of_mem _ hkv)
  · exact hn
  · simp
  · simpa using hv

theorem dfs_v_mono (s : WState) :
    ∀ (fuel : Nat) (n : String) (stk v : List String), v ⊆ (dfsVisit s fuel n stk v).2.2 := by
  intro fuel
  induction fuel with
  | zero => intro n stk v; exact fun x hx => hx
  | succ fuel ih =>
    intro n stk v
    rw [dfsVisit_succ]
    by_cases hstk : n ∈ stk
    · rw [if_pos hstk]; exact fun x hx => hx
    · rw [if_neg hstk]
      by_cases hv : n ∈ v
      · rw [if_pos hv]; exact fun x hx => hx
      · rw [if_neg hv]
        have hfold : ∀ (ms : List String) (acc : Bool × List String × List String),
            acc.2.2 ⊆ (ms.foldl (dfsStep s fuel) acc).2.2 := by
          intro ms
          induction ms with
          | nil => intro acc; exact fun x hx => hx
          | cons m t iht =>
            intro acc
            simp only [List.foldl_cons]
            refine Set.Subset.trans ?_ (iht _)
            unfold dfsStep
            by_cases hb : acc.1
            · rw [if_pos hb]
            · rw [if_neg hb]; exact ih m acc.2.1 acc.2.2
        rw [dfsWrap_v]
        exact fun x hx =>
          hfold (succs s n) (false, n :: stk, n :: v) (List.mem_cons_of_mem _ hx)

/-- The inner successor loop preserves the completeness invariant: if the loop
comes back `false`, the visited set only grew, the stack is unchanged, the
invariant still holds, and every successor in the list is clean. -/
theorem dfsList_false_inv (s : WState) (fuel : Nat) (n : String) (stk : List String)
    (IH : ∀ (m : String) (v rs rv : List String),
      PreClean s (n :: stk) v → keysLeft s v < fuel →
      dfsVisit s fuel m (n :: stk) v = (false, rs, rv) →
      v ⊆ rv ∧ m ∈ rv ∧ rs = n :: stk ∧ PreClean s (n :: stk) rv) :
    ∀ (ms : List String) (v0 rs rv : List String),
      PreClean s (n :: stk) v0 → keysLeft s v0 < fuel →
      ms.foldl (dfsStep s fuel) (false, n :: stk, v0) = (false, rs, rv) →
      v0 ⊆ rv ∧ rs = n :: stk ∧ PreClean s (n :: stk) rv ∧ ∀ m ∈ ms, Clean s m := by
  intro ms
  induction ms with
  | nil =>
    intro v0 rs rv hpre _ h
    cases h
    exact ⟨fun x hx => hx, rfl, hpre, fun m hm => absurd hm (List.not_mem_nil m)⟩
  | cons m t ih =>
    intro v0 rs rv hpre hfuel h
    have hfuelpos : fuel ≠ 0 := by
      intro h0
      rw [h0] at hfuel
      omega
    obtain ⟨f, rfl⟩ := Nat.exists_eq_succ_of_ne_zero hfuelpos
    simp only [List.foldl_cons, dfsStep,
      if_neg (by simp : ¬ (((false, n :: stk, v0) : Bool × List String × List String).1 = true))]
      at h
    by_cases hstk : m ∈ n :: stk
    · rw [dfsVisit_succ, if_pos hstk] at h
      rw [fold_true_stable t (true, n :: stk, v0) rfl] at h
      cases h
    · by_cases hv : m ∈ v0
      · rw [dfsVisit_succ, if_neg hstk, if_pos hv] at h
        obtain ⟨hsub, hrs, hpre2, hrest⟩ := ih v0 rs rv hpre hfuel h
        exact ⟨hsub, hrs, hpre2,
          fun m2 hm2 => (List.mem_cons.mp hm2).elim
            (fun he => he ▸ hpre m hv hstk) (hrest m2)⟩
      · cases hb : (dfsVisit s (f + 1) m (n :: stk) v0).1 with
        | true =>
          have hpair : dfsVisit s (f + 1) m (n :: stk) v0 =
              (true, (dfsVisit s (f + 1) m (n :: stk) v0).2) := Prod.ext hb rfl
          rw [hpair, fold_true_stable t _ rfl] at h
          cases h
        | false =>
          have hpair : dfsVisit s (f + 1) m (n :: stk) v0 =
              (false, (dfsVisit s (f + 1) m (n :: stk) v0).2.1,
               (dfsVisit s (f + 1) m (n :: stk) v0).2.2) := Prod.ext hb rfl
          obtain ⟨hsub1, hmem1, hrs1, hpre1⟩ := IH m v0 _ _ hpre hfuel hpair
          rw [hpair, hrs1] at h
          have hfuel1 : keysLeft s (dfsVisit s (f + 1) m (n :: stk) v0).2.2 < f + 1 :=
            Nat.lt_of_le_of_lt (keysLeft_antitone s hsub1) hfuel
          obtain ⟨hsub2, hrs2, hpre2, hrest⟩ := ih _ rs rv hpre1 hfuel1 h
          refine ⟨Set.Subset.trans hsub1 hsub2, hrs2, hpre2, ?_⟩
          intro m2 hm2
          rcases List.mem_cons.mp hm2 with rfl | hm3
          · exact hpre1 m2 hmem1 hstk
          · exact hrest m2 hm3

/-- Completeness invariant of `hasCycle`: a `false` answer grows the visited
set, marks the current node visited, restores the stack, and keeps every
off-stack visited node clean. -/
theorem dfs_false_inv (s : WState) :
    ∀ (fuel : Nat) (n : String) (stk v rs rv : List String),
      PreClean s stk v → keysLeft s v < fuel →
      dfsVisit s fuel n stk v = (false, rs, rv) →
      v ⊆ rv ∧ n ∈ rv ∧ rs = stk ∧ PreClean s stk rv := by
  intro fuel
  induction fuel with
  | zero => intro n stk v rs rv _ hfuel _; omega
  | succ fuel ih =>
    intro n stk v rs rv hpre hfuel h
    rw [dfsVisit_succ] at h
    by_cases hstk : n ∈ stk
    · rw [if_pos hstk] at h
      cases h
    · rw [if_neg hstk] at h
      by_cases hv : n ∈ v
      · rw [if_pos hv] at h
        cases h
        exact ⟨fun x hx => hx, hv, rfl, hpre⟩
      · rw [if_neg hv] at h
        unfold dfsWrap at h
        cases hr : ((succs s n).foldl (dfsStep s fuel) (false, n :: stk, n :: v)).1 with
        | true =>
          rw [if_pos hr] at h
          have h1 : ((succs s n).foldl (dfsStep s fuel) (false, n :: stk, n :: v)).1 =
              false := by
            rw [h]
          rw [hr] at h1
          cases h1
        | false =>
          rw [if_neg (by rw [hr]; exact Bool.false_ne_true)] at h
          cases h
          have hpair : (succs s n).foldl (dfsStep s fuel) (false, n :: stk, n :: v) =
              (false, ((succs s n).foldl (dfsStep s fuel) (false, n :: stk, n :: v)).2.1,
               ((succs s n).foldl (dfsStep s fuel) (false, n :: stk, n :: v)).2.2) :=
            Prod.ext hr rfl
          have hpre1 : PreClean s (n :: stk) (n :: v) := by
            intro x hx hxs
            rcases List.mem_cons.mp hx with rfl | hx2
            · exact absurd (List.mem_cons_self _ _) hxs
            · exact hpre x hx2 (fun hx3 => hxs (List.mem_cons_of_mem _ hx3))
          by_cases hn : n ∈ alKeys s.nodes
          · have hfuel1 : keysLeft s (n :: v) < fuel :=
              Nat.lt_of_lt_of_le (keysLeft_lt s hn hv) (Nat.lt_succ_iff.mp hfuel)
            obtain ⟨hsub, hrs1, hpre2, hsuccs⟩ :=
              dfsList_false_inv s fuel n stk (fun m v2 rs2 rv2 => ih m (n :: stk) v2 rs2 rv2)
                (succs s n) (n :: v) _ _ hpre1 hfuel1 hpair
            have hcleann : Clean s n := clean_of_succs_clean hsuccs
            refine ⟨fun x hx => hsub (List.mem_cons_of_mem _ hx),
              hsub (List.mem_cons_self _ _), ?_, ?_⟩
            · rw [hrs1, List.erase_cons_head]
            · intro x hx hxs
              by_cases hxn : x = n
              · exact hxn ▸ hcleann
              · exact hpre2 x hx (by
                  intro hx2
                  rcases List.mem_cons.mp hx2 with he | hx3
                  · exact hxn he
                  · exact hxs hx3)
          · rw [succs_nil_of_not_mem hn]
            simp only [List.foldl_nil]
            refine ⟨fun x hx => List.mem_cons_of_mem _ hx, List.mem_cons_self _ _,
              List.erase_cons_head _ _, ?_⟩
            intro x hx hxs
            rcases List.mem_cons.mp hx with rfl | hx2
            · exact clean_of_no_succs (succs_nil_of_not_mem hn)
            · exact hpre x hx2 hxs

theorem cycleScan_eq (s : WState) :
    cycleScan s = (alKeys s.nodes).foldl (scanStep s) ([], [], []) := rfl

/-- The outer loop keeps the joint soundness invariant: every error pushed so
far names a cycle-reaching node, and so does everything on the shared
recursion stack. -/
theorem scan_fold_sound (s : WState) :
    ∀ (keys : List String) (acc : List VIssue × List String × List String),
      (∀ e ∈ acc.1, ReachesCycle s e.nodeId) → (∀ m ∈ acc.2.1, ReachesCycle s m) →
      (∀ e ∈ (keys.foldl (scanStep s) acc).1, ReachesCycle s e.nodeId) ∧
        (∀ m ∈ (keys.foldl (scanStep s) acc).2.1, ReachesCycle s m) := by
  intro keys
  induction keys with
  | nil => intro acc he hs; exact ⟨he, hs⟩
  | cons k t ih =>
    intro acc he hs
    simp only [List.foldl_cons]
    by_cases hk : k ∈ acc.2.2
    · have hstep : scanStep s acc k = acc := by
        unfold scanStep
        rw [if_pos hk]
      rw [hstep]
      exact ih acc he hs
    · cases hr : (dfsVisit s (s.nodes.length + 1) k acc.2.1 acc.2.2).1 with
      | true =>
        have hstep : scanStep s acc k =
            (acc.1 ++ [⟨k, "Circular dependency detected"⟩],
             (dfsVisit s (s.nodes.length + 1) k acc.2.1 acc.2.2).2) := by
          unfold scanStep
          rw [if_neg hk, if_pos hr]
        obtain ⟨hrck, hstkrc⟩ :=
          dfs_true_sound s (s.nodes.length + 1) k acc.2.1 acc.2.2 (chainRC_of_baseRC hs) hr
        rw [hstep]
        apply ih
        · intro e hee
          rcases List.mem_append.mp hee with he2 | he2
          · exact he e he2
          · rw [List.mem_singleton.mp he2]
            exact hrck
        · intro m hm
          exact hstkrc m hm
      | false =>
        have hstep : scanStep s acc k =
            (acc.1, (dfsVisit s (s.nodes.length + 1) k acc.2.1 acc.2.2).2) := by
          unfold scanStep
          rw [if_neg hk, if_neg (by rw [hr]; exact Bool.false_ne_true)]
        rw [hstep]
        apply ih
        · exact he
        · intro m hm
          have hm2 : m ∈ (dfsVisit s (s.nodes.length + 1) k acc.2.1 acc.2.2).2.1 := hm
          rw [dfs_false_stk s (s.nodes.length + 1) k acc.2.1 acc.2.2 hr] at hm2
          exact hs m hm2

theorem scan_fold_errs_extend (s : WState) :
    ∀ (keys : List String) (acc : List VIssue × List String × List String),
      ∃ tail, (keys.foldl (scanStep s) acc).1 = acc.1 ++ tail := by
  intro keys
  induction keys with
  | nil => intro acc; exact ⟨[], (List.append_nil _).symm⟩
  | cons k t ih =>
    intro acc
    simp only [List.foldl_cons]
    obtain ⟨tail, htail⟩ := ih (scanStep s acc k)
    rw [htail]
    unfold scanStep
    by_cases hk : k ∈ acc.2.2
    · rw [if_pos hk]
      exact ⟨tail, rfl⟩
    · rw [if_neg hk]
      cases hr : (dfsVisit s (s.nodes.length + 1) k acc.2.1 acc.2.2).1 with
      | true =>
        rw [if_pos rfl]
        exact ⟨⟨k, "Circular dependency detected"⟩ :: tail, by rw [List.append_assoc]; rfl⟩
      | false =>
        rw [if_neg Bool.false_ne_true]
        exact ⟨tail, rfl⟩

theorem scan_fold_v_mono (s : WState) :
    ∀ (keys : List String) (acc : List VIssue × List String × List String),
      acc.2.2 ⊆ (keys.foldl (scanStep s) acc).2.2 := by
  intro keys
  induction keys with
  | nil => intro acc; exact fun x hx => hx
  | cons k t ih =>
    intro acc
    simp only [List.foldl_cons]
    refine Set.Subset.trans ?_ (ih _)
    unfold scanStep
    by_cases hk : k ∈ acc.2.2
    · rw [if_pos hk]
    · rw [if_neg hk]
      cases hr : (dfsVisit s (s.nodes.length + 1) k acc.2.1 acc.2.2).1 with
      | true =>
        rw [if_pos rfl]
        exact dfs_v_mono s _ k acc.2.1 acc.2.2
      | false =>
        rw [if_neg Bool.false_ne_true]
        exact dfs_v_mono s _ k acc.2.1 acc.2.2

/-- Completeness of the outer loop: if no iteration pushed an error, the
shared stack stayed empty, the visited set stayed clean, and every key was
visited. -/
theorem scan_fold_complete (s : WState) :
    ∀ (keys : List String) (acc : List VIssue × List String × List String),
      acc.2.1 = [] → PreClean s [] acc.2.2 →
      (keys.foldl (scanStep s) acc).1 = acc.1 →
      (keys.foldl (scanStep s) acc).2.1 = [] ∧
        PreClean s [] (keys.foldl (scanStep s) acc).2.2 ∧
        ∀ k ∈ keys, k ∈ (keys.foldl (scanStep s) acc).2.2 := by
  intro keys
  induction keys with
  | nil =>
    intro acc hstk hpre _
    exact ⟨hstk, hpre, fun k hk => absurd hk (List.not_mem_nil k)⟩
  | cons k t ih =>
    intro acc hstk hpre herrs
    simp only [List.foldl_cons] at herrs ⊢
    by_cases hk : k ∈ acc.2.2
    · have hstep : scanStep s acc k = acc := by
        unfold scanStep
        rw [if_pos hk]
      rw [hstep] at herrs ⊢
      obtain ⟨hstk2, hpre2, hrest⟩ := ih acc hstk hpre herrs
      refine ⟨hstk2, hpre2, ?_⟩
      intro k2 hk2
      rcases List.mem_cons.mp hk2 with rfl | hk3
      · exact scan_fold_v_mono s t acc hk
      · exact hrest k2 hk3
    · cases hr : (dfsVisit s (s.nodes.length + 1) k acc.2.1 acc.2.2).1 with
      | true =>
        exfalso
        have hstep : scanStep s acc k =
            (acc.1 ++ [⟨k, "Circular dependency detected"⟩],
             (dfsVisit s (s.nodes.length + 1) k acc.2.1 acc.2.2).2) := by
          unfold scanStep
          rw [if_neg hk, if_pos hr]
        rw [hstep] at herrs
        obtain ⟨tail, htail⟩ := scan_fold_errs_extend s t
          (acc.1 ++ [⟨k, "Circular dependency detected"⟩],
           (dfsVisit s (s.nodes.length + 1) k acc.2.1 acc.2.2).2)
        rw [htail] at herrs
        have hlen := congrArg List.length herrs
        simp at hlen
      | false =>
        have hr2 : (dfsVisit s (s.nodes.length + 1) k [] acc.2.2).1 = false := by
          rw [← hstk]
          exact hr
        have hpair : dfsVisit s (s.nodes.length + 1) k [] acc.2.2 =
            (false, (dfsVisit s (s.nodes.length + 1) k [] acc.2.2).2.1,
             (dfsVisit s (s.nodes.length + 1) k [] acc.2.2).2.2) := Prod.ext hr2 rfl
        obtain ⟨hsub, hkmem, hrs, hpre2⟩ :=
          dfs_false_inv s (s.nodes.length + 1) k [] acc.2.2 _ _
            hpre (Nat.lt_succ_of_le (keysLeft_le s acc.2.2)) hpair
        have hstep : scanStep s acc k =
            (acc.1, (dfsVisit s (s.nodes.length + 1) k acc.2.1 acc.2.2).2) := by
          unfold scanStep
          rw [if_neg hk, if_neg (by rw [hr]; exact Bool.false_ne_true)]
        rw [hstk] at hstep
        rw [hstep] at herrs ⊢
        obtain ⟨hstk3, hpre3, hrest⟩ := ih _ hrs hpre2 herrs
        refine ⟨hstk3, hpre3, ?_⟩
        intro k2 hk2
        rcases List.mem_cons.mp hk2 with rfl | hk3
        · exact scan_fold_v_mono s t _ hkmem
        · exact hrest k2 hk3

/-- C3: the validator's error list is non-empty exactly when the graph's
nodes and connections form at least one directed cycle (every error the
validator emits is a `Circular dependency detected` record, and the warnings
list is separate); equivalently, for every acyclic graph the error list is
empty. -/
theorem validateWorkflow_errors_iff_cyclic (s : WState) :
    (validateWorkflow s).errors ≠ [] ↔ Cyclic s := by
  have herr : (validateWorkflow s).errors =
      ((alKeys s.nodes).foldl (scanStep s) ([], [], [])).1 := rfl
  rw [herr]
  constructor
  · intro hne
    obtain ⟨e, he⟩ := List.exists_mem_of_ne_nil _ hne
    obtain ⟨y, _, hcy⟩ := (scan_fold_sound s (alKeys s.nodes) ([], [], [])
      (fun e2 he2 => absurd he2 (List.not_mem_nil e2))
      (fun m hm => absurd hm (List.not_mem_nil m))).1 e he
    exact ⟨y, hcy⟩
  · intro hcyc heq
    obtain ⟨_, hpre, hall⟩ := scan_fold_complete s (alKeys s.nodes) ([], [], [])
      rfl (fun x hx _ => absurd hx (List.not_mem_nil x)) heq
    obtain ⟨y, hcy⟩ := hcyc
    have hy : y ∈ alKeys s.nodes := by
      apply mem_keys_of_succs_ne_nil
      obtain ⟨m, hm, _⟩ := hcy
      intro hnil
      rw [hnil] at hm
      cases hm
    exact hpre y (hall y hy) (List.not_mem_nil y) ⟨y, Reaches.refl y, hcy⟩

/-- C4 (amended): every error record the cycle scan reports names a node from
which a directed cycle is reachable — the start of a top-level traversal that
ran into a cycle, or into a node left on the shared recursion stack by an
earlier detection (the early return skips the stack cleanup); the scan does
not report each cycle member: members visited during another node's traversal
never appear as an error's `nodeId`. -/
theorem validateWorkflow_errors_sound (s : WState) :
    ∀ e ∈ (validateWorkflow s).errors, ReachesCycle s e.nodeId := by
  intro e he
  exact (scan_fold_sound s (alKeys s.nodes) ([], [], [])
    (fun e2 he2 => absurd he2 (List.not_mem_nil e2))
    (fun m hm => absurd hm (List.not_mem_nil m))).1 e he

theorem validateWorkflow_errors_sound_witness :
    (⟨"node_0", "Circular dependency detected"⟩ : VIssue) ∈
      (validateWorkflow stateCycle).errors ∧
    ReachesCycle stateCycle "node_0" :=
  ⟨by decide,
   validateWorkflow_errors_sound stateCycle ⟨"node_0", "Circular dependency detected"⟩
     (by decide)⟩

/-- C4 counterexample: in `stateCycle` the nodes `node_0` and `node_1` form a
two-cycle (each is a scan successor of the other), so `node_1` participates in
the cycle discovered by the traversal starting at `node_0` — yet the only
error reported names `node_0`; no error record carries `node_1`.  In
`stateLeak` the same two-cycle moreover yields a second error naming
`node_2`, a node outside the cycle: the early return left `node_0` and
`node_1` on the shared recursion stack, and `node_2`'s traversal runs into
them. -/
theorem cycle_member_not_reported_cex :
    ("node_1" ∈ succs stateCycle "node_0" ∧ "node_0" ∈ succs stateCycle "node_1" ∧
     (validateWorkflow stateCycle).errors =
       [⟨"node_0", "Circular dependency detected"⟩] ∧
     ∀ e ∈ (validateWorkflow stateCycle).errors, e.nodeId ≠ "node_1") ∧
    (validateWorkflow stateLeak).errors =
      [⟨"node_0", "Circular dependency detected"⟩,
       ⟨"node_2", "Circular dependency detected"⟩] := by
  decide

/-! ## C6: deleting a node cascades to its connections -/

theorem alDelete_sublist {α : Type} (k : String) (l : List (String × α)) :
    (alDelete k l).Sublist l := by
  induction l with
  | nil => exact List.Sublist.refl _
  | cons pr t ih =>
    obtain ⟨k', v⟩ := pr
    by_cases hk : k' = k
    · rw [alDelete, if_pos hk]
      exact List.sublist_cons_self _ _
    · rw [alDelete, if_neg hk]
      exact List.Sublist.cons₂ _ ih

theorem mem_alDelete {α : Type} {l : List (String × α)} {k : String} {pr : String × α}
    (hnd : (alKeys l).Nodup) (h : pr ∈ alDelete k l) : pr ∈ l ∧ pr.1 ≠ k := by
  induction l with
  | nil => cases h
  | cons pr' t ih =>
    obtain ⟨k', v⟩ := pr'
    simp only [alKeys, List.map_cons, List.nodup_cons] at hnd
    by_cases hk : k' = k
    · subst hk
      rw [alDelete, if_pos rfl] at h
      refine ⟨List.mem_cons_of_mem _ h, ?_⟩
      intro he
      exact hnd.1 (List.mem_map.mpr ⟨pr, h, he⟩)
    · rw [alDelete, if_neg hk] at h
      rcases List.mem_cons.mp h with he | hm
      · exact ⟨he ▸ List.mem_cons_self _ _, by rw [he]; exact hk⟩
      · obtain ⟨hm2, hne⟩ := ih hnd.2 hm
        exact ⟨List.mem_cons_of_mem _ hm2, hne⟩

theorem alGet_alDelete_ne {α : Type} (l : List (String × α)) {k k' : String} (h : k' ≠ k) :
    alGet (alDelete k l) k' = alGet l k' := by
  induction l with
  | nil => rfl
  | cons pr t ih =>
    obtain ⟨k'', v⟩ := pr
    by_cases hk : k'' = k
    · subst hk
      rw [alDelete, if_pos rfl, alGet, if_neg (fun he => h he.symm)]
    · rw [alDelete, if_neg hk, alGet, alGet]
      by_cases h2 : k'' = k'
      · rw [if_pos h2, if_pos h2]
      · rw [if_neg h2, if_neg h2]
        exact ih

theorem map_upd_id {α : Type} {l : List (String × α)} {k : String} (f : α → α)
    (h : ∀ pr ∈ l, pr.1 ≠ k) :
    l.map (fun pr => if pr.1 = k then (pr.1, f pr.2) else pr) = l := by
  rw [List.map_congr_left (fun pr hpr => if_neg (h pr hpr))]
  exact List.map_id _

theorem alSet_get_eq_map {α : Type} :
    ∀ {l : List (String × α)} {k : String} {v0 : α} (f : α → α),
      (alKeys l).Nodup → alGet l k = some v0 →
      alSet k (f v0) l = l.map (fun pr => if pr.1 = k then (pr.1, f pr.2) else pr) := by
  intro l
  induction l with
  | nil => intro k v0 f _ hget; cases hget
  | cons pr t ih =>
    intro k v0 f hnd hget
    obtain ⟨k', v⟩ := pr
    simp only [alKeys, List.map_cons, List.nodup_cons] at hnd
    by_cases hk : k' = k
    · subst hk
      rw [alGet, if_pos rfl] at hget
      cases hget
      rw [alSet, if_pos rfl]
      simp only [List.map_cons, if_pos rfl]
      rw [map_upd_id f (fun pr2 hpr2 he =>
        hnd.1 (List.mem_map.mpr ⟨pr2, hpr2, he⟩))]
      simp
    · rw [alGet, if_neg hk] at hget
      rw [alSet, if_neg hk]
      simp only [List.map_cons, if_neg hk]
      rw [ih f hnd.2 hget]

theorem updNode_eq_map {l : List (String × WNode)} {k : String} (f : WNode → WNode)
    (hnd : (alKeys l).Nodup) :
    updNode k f l = l.map (fun pr => if pr.1 = k then (pr.1, f pr.2) else pr) := by
  unfold updNode
  cases hget : alGet l k with
  | none =>
    rw [map_upd_id f]
    intro pr hpr he
    rw [alGet_eq_none_iff] at hget
    exact hget (he ▸ List.mem_map.mpr ⟨pr, hpr, rfl⟩)
  | some nd => exact alSet_get_eq_map f hnd hget

theorem alKeys_map_upd {α : Type} (l : List (String × α)) (k : String) (f : α → α) :
    alKeys (l.map (fun pr => if pr.1 = k then (pr.1, f pr.2) else pr)) = alKeys l := by
  unfold alKeys
  rw [List.map_map]
  apply List.map_congr_left
  intro pr _
  by_cases h : pr.1 = k
  · simp [h]
  · simp [h]

theorem spliceOutput_inputs (port cid : String) (nd : WNode) :
    (spliceOutput port cid nd).connections.inputs = nd.connections.inputs := by
  unfold spliceOutput
  cases alGet nd.connections.outputs port <;> rfl

theorem dropInput_outputs (port : String) (nd : WNode) :
    (dropInput port nd).connections.outputs = nd.connections.outputs := rfl

theorem dropInput_inputs (port : String) (nd : WNode) :
    (dropInput port nd).connections.inputs = alDelete port nd.connections.inputs := rfl

theorem removeConnection_nodes_map {s : WState} {c : WConn} (cid : String)
    (hndN : (alKeys s.nodes).Nodup) (hget : alGet s.conns cid = some c) :
    (removeConnection cid s).nodes =
      s.nodes.map (fun pr => (pr.1, removeTouch c cid pr.1 pr.2)) := by
  unfold removeConnection
  rw [hget]
  show updNode c.endNode (dropInput c.endPort)
      (updNode c.startNode (spliceOutput c.startPort cid) s.nodes) = _
  rw [updNode_eq_map _ hndN,
      updNode_eq_map _ (by rw [alKeys_map_upd]; exact hndN),
      List.map_map]
  apply List.map_congr_left
  intro pr _
  dsimp only [Function.comp]
  unfold removeTouch
  by_cases h1 : pr.1 = c.startNode
  · rw [if_pos h1, if_pos h1]
    by_cases h2 : pr.1 = c.endNode
    · rw [if_pos h2, if_pos h2]
    · rw [if_neg h2, if_neg h2]
      rfl
  · rw [if_neg h1, if_neg h1]
    by_cases h2 : pr.1 = c.endNode
    · rw [if_pos h2, if_pos h2]
      rfl
    · rw [if_neg h2, if_neg h2]
      rfl

/-- Input entries survive the removal of `cid` and still resolve. -/
theorem inputs_transfer {s : WState} {c : WConn} {cid x : String}
    (hget : alGet s.conns cid = some c)
    {ins0 ins' : List (String × String)}
    (hins : ∀ q ∈ ins0, optSat (alGet s.conns q.2)
      (fun c' => c'.endNode = x ∧ c'.endPort = q.1))
    (hcase : (ins' = ins0 ∧ x ≠ c.endNode) ∨
      (ins' = alDelete c.endPort ins0 ∧ (alKeys ins0).Nodup)) :
    ∀ q ∈ ins', optSat (alGet (alDelete cid s.conns) q.2)
      (fun c' => c'.endNode = x ∧ c'.endPort = q.1) := by
  intro q hq
  have key : q ∈ ins0 ∧ q.2 ≠ cid := by
    rcases hcase with ⟨rfl, hx⟩ | ⟨rfl, hnd0⟩
    · refine ⟨hq, ?_⟩
      intro he
      obtain ⟨c', hc', hp⟩ := hins q hq
      rw [he, hget] at hc'
      cases hc'
      exact hx hp.1.symm
    · obtain ⟨hq0, hne⟩ := mem_alDelete hnd0 hq
      refine ⟨hq0, ?_⟩
      intro he
      obtain ⟨c', hc', hp⟩ := hins q hq0
      rw [he, hget] at hc'
      cases hc'
      exact hne hp.2.symm
  obtain ⟨hq0, hne⟩ := key
  obtain ⟨c', hc', hp⟩ := hins q hq0
  exact ⟨c', by rw [alGet_alDelete_ne _ hne]; exact hc', hp⟩

/-- Output lists of nodes other than the removed connection's source still
resolve after the removal. -/
theorem outputs_transfer_other {s : WState} {c : WConn} {cid x : String}
    (hget : alGet s.conns cid = some c) (hx : x ≠ c.startNode)
    {outs : List (String × List String)}
    (houts : ∀ q ∈ outs, q.2.Nodup ∧ ∀ cid' ∈ q.2,
      optSat (alGet s.conns cid') (fun c' => c'.startNode = x ∧ c'.startPort = q.1)) :
    ∀ q ∈ outs, q.2.Nodup ∧ ∀ cid' ∈ q.2,
      optSat (alGet (alDelete cid s.conns) cid')
        (fun c' => c'.startNode = x ∧ c'.startPort = q.1) := by
  intro q hq
  obtain ⟨hnd, hres⟩ := houts q hq
  refine ⟨hnd, ?_⟩
  intro cid' hcid'
  obtain ⟨c', hc', hp⟩ := hres cid' hcid'
  have hne : cid' ≠ cid := by
    intro he
    rw [he, hget] at hc'
    cases hc'
    exact hx hp.1.symm
  exact ⟨c', by rw [alGet_alDelete_ne _ hne]; exact hc', hp⟩

/-- The spliced output maps of the removed connection's source node still
resolve after the removal. -/
theorem outputs_transfer_splice {s : WState} {c : WConn} {cid x : String}
    (hget : alGet s.conns cid = some c)
    {nd : WNode}
    (hnd0 : (alKeys nd.connections.outputs).Nodup)
    (houts : ∀ q ∈ nd.connections.outputs, q.2.Nodup ∧ ∀ cid' ∈ q.2,
      optSat (alGet s.conns cid') (fun c' => c'.startNode = x ∧ c'.startPort = q.1)) :
    (alKeys (spliceOutput c.startPort cid nd).connections.outputs).Nodup ∧
    ∀ q ∈ (spliceOutput c.startPort cid nd).connections.outputs, q.2.Nodup ∧
      ∀ cid' ∈ q.2,
        optSat (alGet (alDelete cid s.conns) cid')
          (fun c' => c'.startNode = x ∧ c'.startPort = q.1) := by
  unfold spliceOutput
  cases hgo : alGet nd.connections.outputs c.startPort with
  | none =>
    refine ⟨hnd0, ?_⟩
    intro q hq
    obtain ⟨hnd1, hres⟩ := houts q hq
    refine ⟨hnd1, ?_⟩
    intro cid' hcid'
    obtain ⟨c', hc', hp⟩ := hres cid' hcid'
    have hne : cid' ≠ cid := by
      intro he
      rw [he, hget] at hc'
      cases hc'
      have hmem : q.1 ∈ alKeys nd.connections.outputs := List.mem_map.mpr ⟨q, hq, rfl⟩
      rw [← hp.2] at hmem
      rw [alGet_eq_none_iff] at hgo
      exact hgo hmem
    exact ⟨c', by rw [alGet_alDelete_ne _ hne]; exact hc', hp⟩
  | some l =>
    show (alKeys (alSet c.startPort (l.erase cid) nd.connections.outputs)).Nodup ∧
      ∀ q ∈ alSet c.startPort (l.erase cid) nd.connections.outputs, q.2.Nodup ∧
        ∀ cid' ∈ q.2,
          optSat (alGet (alDelete cid s.conns) cid')
            (fun c' => c'.startNode = x ∧ c'.startPort = q.1)
    have hmap : alSet c.startPort (l.erase cid) nd.connections.outputs =
        nd.connections.outputs.map
          (fun pr => if pr.1 = c.startPort then (pr.1, pr.2.erase cid) else pr) :=
      alSet_get_eq_map (fun l2 => l2.erase cid) hnd0 hgo
    rw [hmap]
    constructor
    · rw [alKeys_map_upd nd.connections.outputs c.startPort (fun l2 => l2.erase cid)]
      exact hnd0
    · intro q hq
      obtain ⟨q0, hq0, he⟩ := List.mem_map.mp hq
      obtain ⟨hnd1, hres⟩ := houts q0 hq0
      by_cases hqp : q0.1 = c.startPort
      · rw [if_pos hqp] at he
        subst he
        refine ⟨(List.erase_sublist _ _).nodup hnd1, ?_⟩
        intro cid' hcid'
        have hmem := (List.Nodup.mem_erase_iff hnd1).mp hcid'
        obtain ⟨c', hc', hp⟩ := hres cid' hmem.2
        exact ⟨c', by rw [alGet_alDelete_ne _ hmem.1]; exact hc', hp⟩
      · rw [if_neg hqp] at he
        subst he
        refine ⟨hnd1, ?_⟩
        intro cid' hcid'
        obtain ⟨c', hc', hp⟩ := hres cid' hcid'
        have hne : cid' ≠ cid := by
          intro hee
          rw [hee, hget] at hc'
          cases hc'
          exact hqp hp.2.symm
        exact ⟨c', by rw [alGet_alDelete_ne _ hne]; exact hc', hp⟩

/-- Lemma: `removeTouch` sends a node consistent with the store to a node consistent
with the store minus the removed connection. -/
theorem removeTouch_nodeOK {s : WState} {c : WConn} {cid x : String}
    (hget : alGet s.conns cid = some c) {nd : WNode}
    (h : NodeOK s.conns x nd) :
    NodeOK (alDelete cid s.conns) x (removeTouch c cid x nd) := by
  obtain ⟨hi0, ho0, hins0, houts0⟩ := h
  unfold removeTouch
  have step1 :
      (alKeys ((if x = c.startNode then spliceOutput c.startPort cid else id)
        nd).connections.outputs).Nodup ∧
      (∀ q ∈ ((if x = c.startNode then spliceOutput c.startPort cid else id)
          nd).connections.outputs, q.2.Nodup ∧
        ∀ cid' ∈ q.2,
          optSat (alGet (alDelete cid s.conns) cid')
            (fun c' => c'.startNode = x ∧ c'.startPort = q.1)) ∧
      ((if x = c.startNode then spliceOutput c.startPort cid else id)
        nd).connections.inputs = nd.connections.inputs := by
    by_cases h1 : x = c.startNode
    · rw [if_pos h1]
      obtain ⟨ha, hb⟩ := outputs_transfer_splice hget ho0
        (by subst h1; exact houts0)
      subst h1
      exact ⟨ha, hb, spliceOutput_inputs _ _ _⟩
    · rw [if_neg h1]
      exact ⟨ho0, outputs_transfer_other hget h1 houts0, rfl⟩
  obtain ⟨ho1, houts1, hins1eq⟩ := step1
  by_cases h2 : x = c.endNode
  · rw [if_pos h2]
    refine ⟨?_, ?_, ?_, ?_⟩
    · rw [dropInput_inputs, hins1eq]
      exact ((alDelete_sublist _ _).map Prod.fst).nodup hi0
    · rw [dropInput_outputs]
      exact ho1
    · rw [dropInput_inputs, hins1eq]
      exact inputs_transfer hget hins0 (Or.inr ⟨rfl, hi0⟩)
    · rw [dropInput_outputs]
      exact houts1
  · rw [if_neg h2]
    show NodeOK _ x ((if x = c.startNode then spliceOutput c.startPort cid else id) nd)
    refine ⟨?_, ho1, ?_, houts1⟩
    · rw [hins1eq]
      exact hi0
    · rw [hins1eq]
      exact inputs_transfer hget hins0 (Or.inl ⟨rfl, h2⟩)

theorem removeConnection_consistent (cid : String) {s : WState} (hc : Consistent s) :
    Consistent (removeConnection cid s) := by
  obtain ⟨hndN, hndC, hcons⟩ := hc
  cases hget : alGet s.conns cid with
  | none =>
    have hid : removeConnection cid s = s := by
      unfold removeConnection
      rw [hget]
    rw [hid]
    exact ⟨hndN, hndC, hcons⟩
  | some c =>
    have hconns : (removeConnection cid s).conns = alDelete cid s.conns :=
      removeConnection_conns cid s
    have hnodes := removeConnection_nodes_map cid hndN hget
    refine ⟨?_, ?_, ?_⟩
    · rw [show alKeys (removeConnection cid s).nodes = alKeys s.nodes from
        removeConnection_nodes_alKeys cid s]
      exact hndN
    · rw [hconns]
      exact ((alDelete_sublist cid s.conns).map Prod.fst).nodup hndC
    · intro pr hpr
      rw [hnodes] at hpr
      obtain ⟨pr0, hpr0, he⟩ := List.mem_map.mp hpr
      rw [hconns, ← he]
      exact removeTouch_nodeOK hget (hcons pr0 hpr0)

theorem foldRemove_consistent (cids : List String) :
    ∀ {s : WState}, Consistent s →
      Consistent (cids.foldl (fun s cid => removeConnection cid s) s) := by
  induction cids with
  | nil => intro s hc; exact hc
  | cons c t ih =>
    intro s hc
    simp only [List.foldl_cons]
    exact ih (removeConnection_consistent c hc)

theorem eq_of_mem_keys_nodup {α : Type} {l : List (String × α)} {e1 e2 : String × α}
    (hnd : (alKeys l).Nodup) (h1 : e1 ∈ l) (h2 : e2 ∈ l) (he : e1.1 = e2.1) : e1 = e2 :=
  List.inj_on_of_nodup_map hnd h1 h2 he

/-- C6: deleting a node removes from the connection store every connection
with that node as source or target, and afterwards no surviving node's
per-port connection maps reference any of the removed connection ids: every
id still found in a surviving node's input entries or output lists belongs,
in the pre-state store, to a connection touching neither end at the deleted
node.  The hypothesis is the structural store/port-map agreement `Consistent`,
which every builder-built graph satisfies. -/
theorem deleteNode_no_dangling (s : WState) (n : String) (hc : Consistent s) :
    (∀ pr ∈ (deleteNode n s).conns, pr.2.startNode ≠ n ∧ pr.2.endNode ≠ n) ∧
    (∀ pr ∈ (deleteNode n s).nodes,
      (∀ q ∈ pr.2.connections.inputs, ∀ e ∈ s.conns, e.1 = q.2 →
        e.2.startNode ≠ n ∧ e.2.endNode ≠ n) ∧
      (∀ q ∈ pr.2.connections.outputs, ∀ cid ∈ q.2, ∀ e ∈ s.conns, e.1 = cid →
        e.2.startNode ≠ n ∧ e.2.endNode ≠ n)) := by
  have hndC : (alKeys s.conns).Nodup := hc.2.1
  set toR := (s.conns.filter
    (fun pr => decide (pr.2.startNode = n ∨ pr.2.endNode = n))).map Prod.fst with htoR
  set s1 := toR.foldl (fun s cid => removeConnection cid s) s with hs1
  have hd : deleteNode n s = { s1 with nodes := alDelete n s1.nodes } := rfl
  have hc1 : Consistent s1 := foldRemove_consistent toR hc
  have hs1conns : s1.conns =
      s.conns.filter (fun pr => !(decide (pr.2.startNode = n ∨ pr.2.endNode = n))) := by
    rw [hs1, foldRemove_conns, htoR]
    exact foldDelete_filter _ s.conns hndC
  constructor
  · intro pr hpr
    rw [hd] at hpr
    have hpr2 : pr ∈ s1.conns := hpr
    rw [hs1conns] at hpr2
    have h2 := (List.mem_filter.mp hpr2).2
    simp only [Bool.not_eq_true', decide_eq_false_iff_not] at h2
    push_neg at h2
    exact h2
  · intro pr hpr
    rw [hd] at hpr
    have hpr1 : pr ∈ s1.nodes := (alDelete_sublist n s1.nodes).subset hpr
    obtain ⟨_, _, hins, houts⟩ := hc1.2.2 pr hpr1
    have transfer : ∀ cid : String, (optSat (alGet s1.conns cid) (fun _ => True)) →
        ∀ e ∈ s.conns, e.1 = cid → e.2.startNode ≠ n ∧ e.2.endNode ≠ n := by
      intro cid hopt e he hek
      obtain ⟨c', hc', _⟩ := hopt
      rw [hs1conns] at hc'
      have hcmem := alGet_mem hc'
      have hcmem2 := List.mem_filter.mp hcmem
      have heq : e = (cid, c') :=
        eq_of_mem_keys_nodup hndC he hcmem2.1 hek
      have h2 := hcmem2.2
      simp only [Bool.not_eq_true', decide_eq_false_iff_not] at h2
      push_neg at h2
      rw [heq]
      exact h2
    constructor
    · intro q hq e he hek
      obtain ⟨c', hc', hp⟩ := hins q hq
      exact transfer q.2 ⟨c', hc', trivial⟩ e he hek
    · intro q hq cid hcid e he hek
      obtain ⟨c', hc', hp⟩ := (houts q hq).2 cid hcid
      exact transfer cid ⟨c', hc', trivial⟩ e he hek

theorem deleteNode_no_dangling_witness :
    Consistent statePair ∧
    ((∀ pr ∈ (deleteNode "node_0" statePair).conns,
        pr.2.startNode ≠ "node_0" ∧ pr.2.endNode ≠ "node_0") ∧
      (∀ pr ∈ (deleteNode "node_0" statePair).nodes,
        (∀ q ∈ pr.2.connections.inputs, ∀ e ∈ statePair.conns, e.1 = q.2 →
          e.2.startNode ≠ "node_0" ∧ e.2.endNode ≠ "node_0") ∧
        (∀ q ∈ pr.2.connections.outputs, ∀ cid ∈ q.2, ∀ e ∈ statePair.conns, e.1 = cid →
          e.2.startNode ≠ "node_0" ∧ e.2.endNode ≠ "node_0"))) :=
  ⟨by decide, deleteNode_no_dangling statePair "node_0" (by decide)⟩
